import Mathlib

/-!
Verification of the registry engine of `arxiv_registry.py` (arXiv-first
discovery + BibTeX retrieval with a local SQLite registry).

Strings are modelled as `List Char`.  SQLite tables are modelled as Lean
lists of rows; `INTEGER PRIMARY KEY` auto-assignment is modelled by an
explicit counter.  External library calls (the XML feed parser
`xml.etree.ElementTree`, `datetime.fromisoformat`, `hashlib.sha256`,
`urllib.parse.quote`) are taken as parameters of the definitions that use
them, since their code is not part of the repository.  Everything else is
translated from the Python source.
-/

namespace ArxivRegistry

/-- ASCII whitespace as stripped by Python `str.strip()` / matched by `\s`
(space, tab, newline, carriage return, vertical tab, form feed). -/
def isSpaceCh (c : Char) : Bool :=
  c.toNat = 32 || c.toNat = 9 || c.toNat = 10 || c.toNat = 13 ||
  c.toNat = 11 || c.toNat = 12

/-- ASCII decimal digit, Python `\d` on the inputs we consider. -/
def isDigitCh (c : Char) : Bool :=
  48 ≤ c.toNat && c.toNat ≤ 57

/-- ASCII lower-case letter. -/
def isLowerCh (c : Char) : Bool :=
  97 ≤ c.toNat && c.toNat ≤ 122

/-- ASCII upper-case letter. -/
def isUpperCh (c : Char) : Bool :=
  65 ≤ c.toNat && c.toNat ≤ 90

/-- ASCII alphanumeric, Python `[A-Za-z0-9]`. -/
def isAlnumCh (c : Char) : Bool :=
  isLowerCh c || isUpperCh c || isDigitCh c

/-- Python `\w`: `[A-Za-z0-9_]` (ASCII fragment). -/
def isWordCh (c : Char) : Bool :=
  isAlnumCh c || c = '_'

/-- ASCII lower-casing, Python `str.lower()` on the ASCII fragment. -/
def toLowerCh (c : Char) : Char :=
  if isUpperCh c then Char.ofNat (c.toNat + 32) else c

/-- Python `str.strip()`: drop leading and trailing whitespace. -/
def stripWs (s : List Char) : List Char :=
  ((s.dropWhile isSpaceCh).reverse.dropWhile isSpaceCh).reverse

/-- Python `s.rstrip("/")`: drop trailing slashes. -/
def rstripSlash (s : List Char) : List Char :=
  (s.reverse.dropWhile (fun c => c = '/')).reverse

/-- Python `s.split(c, 1)[0]`: the characters before the first occurrence
of `c` (the whole string when `c` is absent). -/
def takeUntil (c : Char) : List Char → List Char
  | [] => []
  | x :: xs => if x = c then [] else x :: takeUntil c xs

/-- Boolean test that `pat` starts the list `s`. -/
def leadsWith : List Char → List Char → Bool
  | [], _ => true
  | _ :: _, [] => false
  | a :: as, b :: bs => a == b && leadsWith as bs

/-- Python `s.split(pat, 1)[1]` when `pat in s`, `none` otherwise: the
characters after the first occurrence of `pat`. -/
def splitAfterFirst (pat : List Char) : List Char → Option (List Char)
  | [] => none
  | x :: xs =>
      if leadsWith pat (x :: xs) then some ((x :: xs).drop pat.length)
      else splitAfterFirst pat xs

/-- Test for the regex `^arxiv:\s*` of `normalize_arxiv_id`
(case-insensitive on the letters). -/
def matchesArxivScheme : List Char → Bool
  | c1 :: c2 :: c3 :: c4 :: c5 :: c6 :: _ =>
      toLowerCh c1 = 'a' && toLowerCh c2 = 'r' && toLowerCh c3 = 'x' &&
      toLowerCh c4 = 'i' && toLowerCh c5 = 'v' && c6 = ':'
  | _ => false

/-- Python `re.sub(r"^arxiv:\s*", "", raw, flags=re.IGNORECASE)`. -/
def stripArxivScheme (s : List Char) : List Char :=
  if matchesArxivScheme s then (s.drop 6).dropWhile isSpaceCh else s

/-- Python `raw.endswith(".pdf")`, then dropping the extension. -/
def dropPdfExt (s : List Char) : List Char :=
  if s.reverse.take 4 = ('f' :: 'd' :: 'p' :: '.' :: []) then
    s.take (s.length - 4)
  else s

/-- Python `re.sub(r"v\d+$", "", raw)`: remove a trailing `v` followed by
one or more digits (the regex match must end at the end of the string, so
it removes the suffix starting at the last `v` that is followed only by
digits). -/
def stripVersionSuffix (s : List Char) : List Char :=
  let r := s.reverse
  let ds := r.takeWhile isDigitCh
  if ds ≠ [] ∧ (r.drop ds.length).head? = some 'v' then
    (r.drop (ds.length + 1)).reverse
  else s

/-- `normalize_arxiv_id` from `arxiv_registry.py`: returns
`(base_id, versioned_id)` from various arXiv ID inputs. -/
def normalize_arxiv_id (value : List Char) : List Char × List Char :=
  let raw := stripWs value
  let raw := stripArxivScheme raw
  let raw := rstripSlash (takeUntil '?' raw)
  let raw := (splitAfterFirst ("/abs/".toList) raw).getD raw
  let raw := (splitAfterFirst ("/pdf/".toList) raw).getD raw
  let raw := dropPdfExt raw
  let raw := stripWs raw
  (stripVersionSuffix raw, raw)

/-! ### Citation-key helpers (`surname_from_author`, `normalize_key_token`,
`first_title_token`, `year_from_published`) -/

/-- Python `str.split()` (split on whitespace runs, dropping empties);
`cur` is the reversed current word accumulator. -/
def wordsAux (cur : List Char) : List Char → List (List Char)
  | [] => if cur = [] then [] else cur.reverse :: []
  | c :: rest =>
      if isSpaceCh c then
        if cur = [] then wordsAux [] rest else cur.reverse :: wordsAux [] rest
      else wordsAux (c :: cur) rest

def pyWords (s : List Char) : List (List Char) :=
  wordsAux [] s

/-- Python `" ".join(words)`. -/
def joinSpace : List (List Char) → List Char
  | [] => []
  | w :: [] => w
  | w :: ws => w ++ ' ' :: joinSpace ws

/-- `surname_from_author`: collapse whitespace; the portion before the
first comma when present, otherwise the last space-separated token. -/
def surname_from_author (name : List Char) : List Char :=
  let cleaned := stripWs (joinSpace (pyWords name))
  if cleaned = [] then []
  else if cleaned.contains ',' then stripWs (takeUntil ',' cleaned)
  else stripWs (((pyWords cleaned).getLast?).getD [])

/-- `normalize_key_token`: `re.sub(r"[^a-z0-9]+", "", value.lower()).strip()`. -/
def normalize_key_token (value : List Char) : List Char :=
  stripWs ((value.map toLowerCh).filter (fun c => isLowerCh c || isDigitCh c))

/-- `first_title_token`: the first non-empty token of
`re.split(r"[^A-Za-z0-9]+", title.strip())`, i.e. the first maximal
alphanumeric run of the stripped title, `""` when there is none. -/
def first_title_token (title : List Char) : List Char :=
  let t := stripWs title
  (t.dropWhile (fun c => !(isAlnumCh c))).takeWhile isAlnumCh

/-- `year_from_published`: the four leading digits of the stripped date,
`"0000"` when the date is absent, empty or does not start with four
digits. -/
def year_from_published (published : Option (List Char)) : List Char :=
  match published with
  | none => '0' :: '0' :: '0' :: '0' :: []
  | some p =>
      if p = [] then '0' :: '0' :: '0' :: '0' :: []
      else
        let t := stripWs p
        if 4 ≤ t.length ∧ (t.take 4).all isDigitCh then t.take 4
        else '0' :: '0' :: '0' :: '0' :: []

/-- The base-key derivation of `ensure_citation_key` (lines 522–528):
surname of the first author (empty when the work has none), year, first
title token, with the `"arxiv" + id` fallback for an empty base. -/
def citation_base_key (firstAuthor : Option (List Char))
    (published : Option (List Char)) (title arxiv_id : List Char) : List Char :=
  let first_author := match firstAuthor with
    | some n => surname_from_author n
    | none => []
  let year := year_from_published published
  let first_word := first_title_token title
  let base := normalize_key_token first_author ++ year ++ normalize_key_token first_word
  if base = [] then ('a' :: 'r' :: 'x' :: 'i' :: 'v' :: []) ++ normalize_key_token arxiv_id
  else base

/-- Decidable equality for `Except`, used to evaluate the operations on
concrete registries. -/
instance exceptDecEq {ε α : Type} [DecidableEq ε] [DecidableEq α] :
    DecidableEq (Except ε α) := fun a b =>
  match a, b with
  | .error e1, .error e2 =>
      if h : e1 = e2 then .isTrue (congrArg Except.error h)
      else .isFalse (fun hh => h (Except.error.inj hh))
  | .error e1, .ok a2 => .isFalse (fun hh => Except.noConfusion hh)
  | .ok a1, .error e2 => .isFalse (fun hh => Except.noConfusion hh)
  | .ok a1, .ok a2 =>
      if h : a1 = a2 then .isTrue (congrArg Except.ok h)
      else .isFalse (fun hh => h (Except.ok.inj hh))

/-! ### The registry store (SQLite schema of `init_schema`)

Tables are lists of rows; `INTEGER PRIMARY KEY` auto-assignment is an
explicit counter for works and the list index for authors (author-id
values are never observable).  Timestamps (`now_iso()`) are parameters. -/

/-- A parsed feed entry as consumed by `upsert_work` (the dict built by
`parse_arxiv_feed`).  The JSON text `categories_json` is modelled by the
category list itself (the encoding is injective and never inspected). -/
structure WorkRecord where
  arxiv_id : List Char
  title : List Char
  summary : Option (List Char) := none
  published : Option (List Char) := none
  updated : Option (List Char) := none
  comment : Option (List Char) := none
  primary_category : Option (List Char) := none
  categories : List (List Char) := []
  abs_url : Option (List Char) := none
  pdf_url : Option (List Char) := none
  journal_ref : Option (List Char) := none
  doi : Option (List Char) := none
  authors : List (List Char) := []
deriving DecidableEq

/-- A row of the `works` table. -/
structure WorksRow where
  work_id : Nat
  arxiv_id : List Char
  title : List Char
  summary : Option (List Char)
  published : Option (List Char)
  updated : Option (List Char)
  comment : Option (List Char)
  primary_category : Option (List Char)
  categories_json : List (List Char)
  abs_url : Option (List Char)
  pdf_url : Option (List Char)
  journal_ref : Option (List Char)
  doi : Option (List Char)
  created_at : List Char
  last_seen_at : List Char
deriving DecidableEq

/-- A row of the `work_authors` table. -/
structure WorkAuthorRow where
  work_id : Nat
  author_id : Nat
  position : Nat
deriving DecidableEq

/-- A row of the `searches` table. -/
structure SearchRow where
  search_id : Nat
  requested_at : List Char
  query : List Char
  url : List Char
  start : Int
  max_results : Int
  sort_by : List Char
  sort_order : List Char
  total_results : Option Int
  items_per_page : Option Int
  start_index : Option Int
  result_count : Nat
  raw_sha256 : List Char
  raw_xml : List Char
deriving DecidableEq

/-- A row of the `fetches` table. -/
structure FetchRow where
  fetched_at : List Char
  kind : List Char
  url : List Char
  status : Option Int
  sha256 : Option (List Char)
  bytes : Nat
deriving DecidableEq

/-- A row of the `citation_keys` table. -/
structure KeyRow where
  work_id : Nat
  key : List Char
  base_key : List Char
  generated_at : List Char
deriving DecidableEq

/-- The registry (one SQLite database). -/
structure RegistryState where
  works : List WorksRow
  authors : List (List Char)
  work_authors : List WorkAuthorRow
  searches : List SearchRow
  fetches : List FetchRow
  citation_keys : List KeyRow
  next_work_id : Nat
deriving DecidableEq

/-- `SELECT * FROM works WHERE arxiv_id = ?` (first matching row). -/
def findWork (works : List WorksRow) (aid : List Char) : Option WorksRow :=
  works.find? (fun r => r.arxiv_id == aid)

/-- The partial unique index `works_doi_unique`: a violation happens when
the written row carries a non-null doi already held by a different row. -/
def doiConflict (works : List WorksRow) (row : WorksRow) : Bool :=
  match row.doi with
  | none => false
  | some d => works.any (fun r => r.work_id != row.work_id && r.doi == some d)

/-- The partial unique index `ux_works_doi` of the database schema: two
distinct rows never share a non-null doi. -/
def DoiInv (works : List WorksRow) : Prop :=
  ∀ r1 ∈ works, ∀ r2 ∈ works, r1.work_id ≠ r2.work_id → r1.doi ≠ none →
    r1.doi ≠ r2.doi

/-- The `DO UPDATE SET` clause of `upsert_work`: last-write-wins for the
descriptive fields, `COALESCE(excluded.x, works.x)` for comment and links,
`COALESCE(works.doi, excluded.doi)` for the doi. -/
def mergedRow (old : WorksRow) (w : WorkRecord) (doi_value : Option (List Char))
    (now : List Char) : WorksRow :=
  { old with
    title := w.title
    summary := w.summary
    published := w.published
    updated := w.updated
    comment := w.comment.orElse (fun _ => old.comment)
    primary_category := w.primary_category
    categories_json := w.categories
    abs_url := w.abs_url.orElse (fun _ => old.abs_url)
    pdf_url := w.pdf_url.orElse (fun _ => old.pdf_url)
    journal_ref := w.journal_ref.orElse (fun _ => old.journal_ref)
    doi := old.doi.orElse (fun _ => doi_value)
    last_seen_at := now }

/-- The plain `INSERT` branch of `upsert_work`. -/
def freshRow (wid : Nat) (w : WorkRecord) (doi_value : Option (List Char))
    (now : List Char) : WorksRow :=
  { work_id := wid, arxiv_id := w.arxiv_id, title := w.title,
    summary := w.summary, published := w.published, updated := w.updated,
    comment := w.comment, primary_category := w.primary_category,
    categories_json := w.categories, abs_url := w.abs_url,
    pdf_url := w.pdf_url, journal_ref := w.journal_ref, doi := doi_value,
    created_at := now, last_seen_at := now }

/-- One attempt of the `INSERT … ON CONFLICT(arxiv_id) DO UPDATE … RETURNING
work_id` statement of `upsert_work` with a given doi value.  An
`IntegrityError` raised by the partial unique doi index is `Except.error`.
Returns the new `works` table, the returned `work_id` and the next free
work id. -/
def runUpsert (st : RegistryState) (w : WorkRecord) (doi_value : Option (List Char))
    (now : List Char) : Except Unit (List WorksRow × Nat × Nat) :=
  match findWork st.works w.arxiv_id with
  | some old =>
      let row := mergedRow old w doi_value now
      if doiConflict st.works row then .error ()
      else .ok (st.works.map (fun r => if r.arxiv_id == w.arxiv_id then row else r),
        old.work_id, st.next_work_id)
  | none =>
      let row := freshRow st.next_work_id w doi_value now
      if doiConflict st.works row then .error ()
      else .ok (st.works ++ [row], st.next_work_id, st.next_work_id + 1)

/-- `SELECT author_id FROM authors WHERE name = ?` (author ids are list
indices). -/
def findAuthorId (authors : List (List Char)) (name : List Char) : Option Nat :=
  match authors with
  | [] => none
  | n :: rest => if n = name then some 0 else (findAuthorId rest name).map (· + 1)

/-- `INSERT INTO authors(name) … ON CONFLICT(name) DO NOTHING` followed by
the `SELECT author_id` (which always succeeds right after the insert). -/
def getOrCreateAuthor (authors : List (List Char)) (name : List Char) :
    List (List Char) × Nat :=
  match findAuthorId authors name with
  | some i => (authors, i)
  | none => (authors ++ name :: [], authors.length)

/-- The author-replacement loop of `upsert_work`: positions are assigned
contiguously from `pos`, author ids already in `seen` are skipped. -/
def addAuthors (wid : Nat) : List (List Char) → List (List Char) →
    List WorkAuthorRow → List Nat → Nat → List (List Char) × List WorkAuthorRow
  | [], authors, wa, _, _ => (authors, wa)
  | name :: rest, authors, wa, seen, pos =>
      let p := getOrCreateAuthor authors name
      if p.2 ∈ seen then addAuthors wid rest p.1 wa seen pos
      else addAuthors wid rest p.1 (wa ++ ⟨wid, p.2, pos⟩ :: []) (p.2 :: seen)
        (pos + 1)

/-- `upsert_work`: the write with the record's doi, retried once with a
null doi on an integrity conflict, followed by full replacement of the
work's authorship rows. -/
def upsert_work (st : RegistryState) (w : WorkRecord) (now : List Char) :
    Except Unit (RegistryState × Nat) :=
  match (match runUpsert st w w.doi now with
         | .ok r => Except.ok r
         | .error _ => runUpsert st w none now) with
  | .error e => .error e
  | .ok (works', wid, next') =>
      let wa0 := st.work_authors.filter (fun r => r.work_id != wid)
      let p := addAuthors wid w.authors st.authors wa0 [] 0
      .ok ({ works := works', authors := p.1, work_authors := p.2,
             searches := st.searches, fetches := st.fetches,
             citation_keys := st.citation_keys, next_work_id := next' }, wid)

/-- The registry state produced by a successful `upsert_work` run, given the
new works table, the row id and the id counter. -/
def upsertState (st : RegistryState) (w : WorkRecord) (works' : List WorksRow)
    (wid next' : Nat) : RegistryState :=
  let wa0 := st.work_authors.filter (fun r => r.work_id != wid)
  let p := addAuthors wid w.authors st.authors wa0 [] 0
  { works := works', authors := p.1, work_authors := p.2,
    searches := st.searches, fetches := st.fetches,
    citation_keys := st.citation_keys, next_work_id := next' }

/-- The authorship rows of a work, as `(position, author name)` pairs in
table order. -/
def authorsOfWork (st : RegistryState) (wid : Nat) : List (Nat × Option (List Char)) :=
  (st.work_authors.filter (fun r => r.work_id == wid)).map
    (fun r => (r.position, st.authors.get? r.author_id))

/-- First occurrences of a list of names, given names already seen. -/
def dedupNames (seenN : List (List Char)) : List (List Char) → List (List Char)
  | [] => []
  | n :: rest =>
      if n ∈ seenN then dedupNames seenN rest
      else n :: dedupNames (n :: seenN) rest

/-! ### Citation keys (`ensure_citation_key`) -/

def findKeyRow (keys : List KeyRow) (wid : Nat) : Option KeyRow :=
  keys.find? (fun r => r.work_id == wid)

def findKeyByKey (keys : List KeyRow) (k : List Char) : Option KeyRow :=
  keys.find? (fun r => r.key == k)

def findWorkById (works : List WorksRow) (wid : Nat) : Option WorksRow :=
  works.find? (fun r => r.work_id == wid)

/-- The `work_authors ⋈ authors` join restricted to one work, as
`(position, name)` pairs. -/
def joinedAuthors (st : RegistryState) (wid : Nat) : List (Nat × List Char) :=
  st.work_authors.filterMap (fun r =>
    if r.work_id == wid then (st.authors.get? r.author_id).map (fun n => (r.position, n))
    else none)

/-- `SELECT a.name … ORDER BY wa.position ASC LIMIT 1`. -/
def firstAuthorName (st : RegistryState) (wid : Nat) : Option (List Char) :=
  ((joinedAuthors st wid).argmin Prod.fst).map Prod.snd

/-- `re.sub(r"\D+", "", s)`. -/
def digitsOf (s : List Char) : List Char :=
  s.filter isDigitCh

/-- Python `s[-n:]`. -/
def lastN (n : Nat) (s : List Char) : List Char :=
  s.drop (s.length - n)

/-- Python `str` of a natural number; the first argument is structural
fuel (any fuel above the digit count gives the same value, and
`natToChars` always supplies enough). -/
def natToCharsAux : Nat → Nat → List Char
  | 0, _ => []
  | fuel + 1, n =>
      if n < 10 then Char.ofNat (48 + n) :: []
      else natToCharsAux fuel (n / 10) ++ Char.ofNat (48 + n % 10) :: []

def natToChars (n : Nat) : List Char :=
  natToCharsAux (n + 1) n

/-- `digits[-6:] if digits else str(work_id)`. -/
def keySuffix (w : WorksRow) : List Char :=
  let ds := digitsOf w.arxiv_id
  if ds ≠ [] then lastN 6 ds else natToChars w.work_id

/-- The collision policy of `ensure_citation_key` (lines 530–538): bare
base, then base + suffix, then base + raw work id, each tried against
other works' keys. -/
def chooseCandidate (keys : List KeyRow) (w : WorksRow) (base : List Char) :
    List Char :=
  match findKeyByKey keys base with
  | none => base
  | some e =>
      if e.work_id ≠ w.work_id then
        let candidate2 := base ++ keySuffix w
        match findKeyByKey keys candidate2 with
        | none => candidate2
        | some e2 =>
            if e2.work_id ≠ w.work_id then base ++ natToChars w.work_id
            else candidate2
      else base

/-- `ensure_citation_key`: return the stored key unchanged when present;
otherwise derive the base, pick a candidate by the collision policy and
insert it.  A missing work is the `RuntimeError`, and a `UNIQUE`
violation of the final `INSERT` is also `Except.error`. -/
def ensure_citation_key (st : RegistryState) (wid : Nat) (now : List Char) :
    Except Unit (RegistryState × List Char) :=
  match findKeyRow st.citation_keys wid with
  | some row => .ok (st, row.key)
  | none =>
      match findWorkById st.works wid with
      | none => .error ()
      | some w =>
          let base := citation_base_key (firstAuthorName st wid) w.published
            w.title w.arxiv_id
          let candidate := chooseCandidate st.citation_keys w base
          if (findKeyByKey st.citation_keys candidate).isSome then .error ()
          else .ok ({ st with citation_keys :=
              st.citation_keys ++ ⟨wid, candidate, base, now⟩ :: [] }, candidate)

/-! ### Fetch log and `ensure_work` -/

/-- `record_fetch`: append one row to `fetches`; the content hash is only
stored for a non-empty body (`sha256_bytes(body) if body else None`).
`hash` stands for the external `sha256` function. -/
def record_fetch (st : RegistryState) (kind url : List Char) (status : Option Int)
    (body : List Char) (hash : List Char → List Char) (now : List Char) :
    RegistryState :=
  { st with fetches := st.fetches ++
      ⟨now, kind, url, status, if body ≠ [] then some (hash body) else none,
        body.length⟩ :: [] }

/-- The metadata URL built by `ensure_work`; `quote` stands for
`urllib.parse.quote`. -/
def idListUrl (quote : List Char → List Char) (aid : List Char) : List Char :=
  "https://export.arxiv.org/api/query?id_list=".toList ++ quote aid
    ++ "&max_results=1".toList

/-- `ensure_work`: look the work up; on a miss fetch its metadata, log the
fetch for a non-empty body, parse and upsert the first entry.  `fetchRes`
is the `(status, body)` pair produced by `fetch_url` (a transport failure
yields `(none, [])`), `parse` stands for `parse_arxiv_feed`.  The second
component records whether a remote retrieval attempt was made. -/
def ensure_work {μ : Type} (parse : List Char → μ × List WorkRecord)
    (quote hash : List Char → List Char) (fetchRes : Option Int × List Char)
    (st : RegistryState) (aid : List Char) (now : List Char) :
    Except Unit (RegistryState × Option Nat) × Bool :=
  match findWork st.works aid with
  | some row => (.ok (st, some row.work_id), false)
  | none =>
      if fetchRes.2 = [] then (.ok (st, none), true)
      else
        let st1 := record_fetch st ("arxiv_api_id_list".toList)
          (idListUrl quote aid) fetchRes.1 fetchRes.2 hash now
        match (parse fetchRes.2).2 with
        | [] => (.ok (st1, none), true)
        | e :: _ =>
            match upsert_work st1 e now with
            | .error u => (.error u, true)
            | .ok (st2, wid) => (.ok (st2, some wid), true)

/-! ### Search cache (`search_cache_hit`) -/

structure ArxivSearchParams where
  query : List Char
  start : Int
  max_results : Int
  sort_by : List Char
  sort_order : List Char
deriving DecidableEq

/-- SQLite BINARY collation on TEXT (byte order; these strings are ASCII
timestamps, where byte order is codepoint order). -/
def strLtCh : List Char → List Char → Bool
  | [], [] => false
  | [], _ :: _ => true
  | _ :: _, [] => false
  | a :: as, b :: bs =>
      if a.toNat < b.toNat then true
      else if b.toNat < a.toNat then false
      else strLtCh as bs

/-- `ORDER BY requested_at DESC LIMIT 1` over the matching rows (the first
row with maximal timestamp). -/
def mostRecent (rows : List SearchRow) : Option SearchRow :=
  rows.foldl (fun acc r =>
    match acc with
    | none => some r
    | some m => if strLtCh m.requested_at r.requested_at then some r else some m) none

/-- The `WHERE` clause of `search_cache_hit`: exact equality on the five
parameters. -/
def matchingSearches (rows : List SearchRow) (p : ArxivSearchParams) :
    List SearchRow :=
  rows.filter (fun r => r.query == p.query && r.start == p.start
    && r.max_results == p.max_results && r.sort_by == p.sort_by
    && r.sort_order == p.sort_order)

/-- `search_cache_hit`: a non-positive TTL disables caching; otherwise the
most recently recorded exactly-matching search is re-decoded from its
stored raw response when its age is within the TTL.  `parse` stands for
`parse_arxiv_feed` (the stored TEXT and its UTF-8 re-encoding are
identified, which is faithful because only responses that parsed as UTF-8
XML are ever stored); `toEpoch` stands for `datetime.fromisoformat`
composed with conversion to UTC epoch seconds, and `now` for the current
UTC time, so that `now - t` is `age_s`. -/
def search_cache_hit {α : Type} (parse : List Char → α)
    (toEpoch : List Char → Option Int) (now : Int)
    (st : RegistryState) (params : ArxivSearchParams) (cache_ttl_s : Int) :
    Option (Nat × α) :=
  if cache_ttl_s ≤ 0 then none
  else
    match mostRecent (matchingSearches st.searches params) with
    | none => none
    | some row =>
        match toEpoch row.requested_at with
        | none => none
        | some t =>
            if cache_ttl_s < now - t then none
            else some (row.search_id, parse row.raw_xml)

/-! ### BibTeX key rewriting (`rewrite_bibtex_key`) -/

def lbrace : Char := Char.ofNat 123

/-- Match the regex fragment `(\w+)\s*\{\s*([^,]+)\s*,` right after an `@`,
with Python's backtracking semantics: the greedy `[^,]+` runs up to the
character before the first comma (failing when no comma follows), and the
`\s*` after the brace takes the whole leading whitespace run unless that
would leave group 2 empty, in which case it gives back its last character.
Returns `(mid, key, post)` with `t = mid ++ key ++ post`, where `key` is
the span of group 2 (the key token). -/
def matchAfterAt (t : List Char) : Option (List Char × List Char × List Char) :=
  let typ := t.takeWhile isWordCh
  if typ = [] then none
  else
    let t1 := t.dropWhile isWordCh
    let ws1 := t1.takeWhile isSpaceCh
    match t1.dropWhile isSpaceCh with
    | [] => none
    | c :: u =>
        if c = lbrace then
          let before := u.takeWhile (fun x => x ≠ ',')
          match u.dropWhile (fun x => x ≠ ',') with
          | ',' :: rest =>
              if before = [] then none
              else
                let key := if before.dropWhile isSpaceCh = []
                  then before.drop (before.length - 1)
                  else before.dropWhile isSpaceCh
                let ws2 := if before.dropWhile isSpaceCh = []
                  then before.take (before.length - 1)
                  else before.takeWhile isSpaceCh
                some (typ ++ ws1 ++ c :: ws2, key, ',' :: rest)
          | _ => none
        else none

/-- The leftmost-match search of `re.search`: try every position in order;
`acc` is the consumed input.  Returns `(pre, key, post)` with the whole
input equal to `pre ++ key ++ post` and `key` the group-2 span of the
first match of `@(\w+)\s*\{\s*([^,]+)\s*,`. -/
def findKeySpan (acc : List Char) : List Char → Option (List Char × List Char × List Char)
  | [] => none
  | c :: t =>
      if c = '@' then
        match matchAfterAt t with
        | some (mid, key, post) => some (acc ++ c :: mid, key, post)
        | none => findKeySpan (acc ++ c :: []) t
      else findKeySpan (acc ++ c :: []) t

/-- `rewrite_bibtex_key`: replace the span of group 2 of the first match
with the new key, the input unchanged when there is no match. -/
def rewrite_bibtex_key (bibtex_text new_key : List Char) : List Char :=
  match findKeySpan [] bibtex_text with
  | none => bibtex_text
  | some (pre, _, post) => pre ++ new_key ++ post

/-! ### Concrete registries used by the witness theorems -/

def emptyState : RegistryState :=
  { works := [], authors := [], work_authors := [], searches := [], fetches := [],
    citation_keys := [], next_work_id := 1 }

/-- A parsed record as produced for `2301.04104`. -/
def recJane : WorkRecord :=
  { arxiv_id := "2301.04104".toList, title := "Scaling Transformers".toList,
    published := some ("2023-05-01T00:00:00Z".toList),
    doi := some ("10.48550/a1".toList),
    authors := "Doe, Jane".toList :: "Roe, Richard".toList :: [] }

def rowW1 : WorksRow :=
  { work_id := 1, arxiv_id := "2301.04104".toList,
    title := "Scaling Transformers".toList, summary := none,
    published := some ("2023-05-01T00:00:00Z".toList), updated := none,
    comment := none, primary_category := none, categories_json := [],
    abs_url := none, pdf_url := none, journal_ref := none,
    doi := some ("10.48550/a1".toList), created_at := "T0".toList,
    last_seen_at := "T0".toList }

def rowW2 : WorksRow :=
  { work_id := 2, arxiv_id := "2305.99999".toList,
    title := "Scaling Laws".toList, summary := none,
    published := some ("2023-06-01".toList), updated := none,
    comment := none, primary_category := none, categories_json := [],
    abs_url := none, pdf_url := none, journal_ref := none, doi := none,
    created_at := "T0".toList, last_seen_at := "T0".toList }

/-- Two stored works by the same author whose derived base keys collide. -/
def twoWorksState : RegistryState :=
  { works := rowW1 :: rowW2 :: [], authors := "Doe, Jane".toList :: [],
    work_authors := ⟨1, 0, 0⟩ :: ⟨2, 0, 0⟩ :: [],
    searches := [], fetches := [], citation_keys := [], next_work_id := 3 }

/-- `twoWorksState` after `ensure_citation_key` for work 1. -/
def twoWorksKeyed : RegistryState :=
  { twoWorksState with citation_keys :=
      ⟨1, "doe2023scaling".toList, "doe2023scaling".toList, "T1".toList⟩ :: [] }

/-- A record whose doi collides with the stored doi of `rowW1`. -/
def recConflict : WorkRecord :=
  { arxiv_id := "2401.00001".toList, title := "Other Title".toList,
    doi := some ("10.48550/a1".toList), authors := [] }

def oneWorkState : RegistryState :=
  { emptyState with works := rowW1 :: [], next_work_id := 2 }

def searchRowFix : SearchRow :=
  { search_id := 7, requested_at := "2024-01-01T00:00:00+00:00".toList,
    query := "q".toList, url := "u".toList, start := 0, max_results := 5,
    sort_by := "relevance".toList, sort_order := "descending".toList,
    total_results := some 100, items_per_page := some 5, start_index := some 0,
    result_count := 5, raw_sha256 := "h".toList, raw_xml := "<feed/>".toList }

def searchState : RegistryState :=
  { emptyState with searches := searchRowFix :: [] }

def paramsFix : ArxivSearchParams :=
  { query := "q".toList, start := 0, max_results := 5,
    sort_by := "relevance".toList, sort_order := "descending".toList }

/-! ### Supporting definitions for the four-shape theorem -/

/-- Characters allowed in the (new-style) arXiv identifiers quantified over
in the four-shape theorem: ASCII digits and the dot. -/
def isIdCh (c : Char) : Bool :=
  isDigitCh c || c = '.'

/-! The lemma / theorem part of the development starts here. -/

theorem isIdCh_toNat {c : Char} (h : isIdCh c = true) :
    (48 ≤ c.toNat ∧ c.toNat ≤ 57) ∨ c.toNat = 46 := by
  simp only [isIdCh, Bool.or_eq_true, isDigitCh, Bool.and_eq_true,
    decide_eq_true_eq] at h
  rcases h with ⟨h1, h2⟩ | h1
  · exact Or.inl ⟨h1, h2⟩
  · subst h1
    exact Or.inr rfl

theorem isDigitCh_toNat {c : Char} (h : isDigitCh c = true) :
    48 ≤ c.toNat ∧ c.toNat ≤ 57 := by
  simpa [isDigitCh] using h

theorem idCh_ne {c : Char} (h : isIdCh c = true) (d : Char)
    (hd : ¬ ((48 ≤ d.toNat ∧ d.toNat ≤ 57) ∨ d.toNat = 46)) : c ≠ d := by
  intro e
  exact hd (e ▸ isIdCh_toNat h)

theorem digitCh_ne {c : Char} (h : isDigitCh c = true) (d : Char)
    (hd : ¬ (48 ≤ d.toNat ∧ d.toNat ≤ 57)) : c ≠ d := by
  intro e
  exact hd (e ▸ isDigitCh_toNat h)

theorem idCh_not_space {c : Char} (h : isIdCh c = true) : isSpaceCh c = false := by
  have := isIdCh_toNat h
  simp only [isSpaceCh, Bool.or_eq_false_iff, decide_eq_false_iff_not]
  omega

theorem digitCh_not_space {c : Char} (h : isDigitCh c = true) : isSpaceCh c = false :=
  idCh_not_space (by simp [isIdCh, h])

theorem toLowerCh_of_idCh {c : Char} (h : isIdCh c = true) : toLowerCh c = c := by
  have h2 := isIdCh_toNat h
  unfold toLowerCh
  rw [if_neg]
  simp only [isUpperCh, Bool.and_eq_true, decide_eq_true_eq, not_and]
  omega

/-! ### Supporting lemmas: list scanning primitives -/

theorem dropWhile_cons_false {p : Char → Bool} {c : Char} {t : List Char}
    (h : p c = false) : (c :: t).dropWhile p = c :: t := by
  simp [List.dropWhile_cons, h]

theorem dropWhile_eq_self_of_forall {p : Char → Bool} {s : List Char}
    (h : ∀ c ∈ s, p c = false) : s.dropWhile p = s := by
  cases s with
  | nil => rfl
  | cons c t => exact dropWhile_cons_false (h c (by simp))

theorem stripWs_eq_self {s : List Char} (h : ∀ c ∈ s, isSpaceCh c = false) :
    stripWs s = s := by
  unfold stripWs
  rw [dropWhile_eq_self_of_forall h,
      dropWhile_eq_self_of_forall (fun c hc => h c (List.mem_reverse.mp hc)),
      List.reverse_reverse]

theorem rstripSlash_eq_self {s : List Char} {c : Char} {t : List Char}
    (hrev : s.reverse = c :: t) (hc : c ≠ '/') : rstripSlash s = s := by
  unfold rstripSlash
  rw [hrev, dropWhile_cons_false (by simpa using hc), ← hrev, List.reverse_reverse]

theorem rstripSlash_append_slash {x : List Char} {c : Char} {t : List Char}
    (hrev : x.reverse = c :: t) (hc : c ≠ '/') :
    rstripSlash (x ++ ('/' :: [])) = x := by
  unfold rstripSlash
  rw [List.reverse_append, hrev]
  simp only [List.reverse_cons, List.reverse_nil, List.nil_append, List.singleton_append]
  rw [List.dropWhile_cons, if_pos (by decide), dropWhile_cons_false (by simp [hc]),
      ← hrev, List.reverse_reverse]

theorem takeUntil_append {c : Char} {x y : List Char} (h : ∀ a ∈ x, a ≠ c) :
    takeUntil c (x ++ y) = x ++ takeUntil c y := by
  induction x with
  | nil => rfl
  | cons a t ih =>
      simp only [List.cons_append, takeUntil, if_neg (h a (by simp))]
      exact congrArg (List.cons a) (ih (fun x hx => h x (by simp [hx])))

theorem takeUntil_eq_self {c : Char} {s : List Char} (h : ∀ a ∈ s, a ≠ c) :
    takeUntil c s = s := by
  have := takeUntil_append (y := []) h
  simpa [takeUntil] using this

theorem takeUntil_append_stop {c : Char} {x y : List Char} (h : ∀ a ∈ x, a ≠ c) :
    takeUntil c (x ++ c :: y) = x := by
  rw [takeUntil_append h]
  simp [takeUntil]

theorem leadsWith_self_append (pat rest : List Char) :
    leadsWith pat (pat ++ rest) = true := by
  induction pat with
  | nil => rfl
  | cons p t ih => simp [leadsWith, ih]

theorem splitAfterFirst_cons_self (p : Char) (t rest : List Char) :
    splitAfterFirst (p :: t) ((p :: t) ++ rest) = some rest := by
  show splitAfterFirst (p :: t) (p :: (t ++ rest)) = some rest
  rw [splitAfterFirst]
  rw [if_pos (by simpa using leadsWith_self_append (p :: t) rest)]
  simp

theorem splitAfterFirst_headBlock {p : Char} (pat : List Char) :
    ∀ (s1 s2 : List Char), (∀ c ∈ s1, c ≠ p) →
      splitAfterFirst (p :: pat) (s1 ++ s2) = splitAfterFirst (p :: pat) s2 := by
  intro s1
  induction s1 with
  | nil => intro s2 _; rfl
  | cons c t ih =>
      intro s2 h
      show splitAfterFirst (p :: pat) (c :: (t ++ s2)) = _
      rw [splitAfterFirst]
      have hpc : (p == c) = false := by
        simp only [beq_eq_false_iff_ne, ne_eq]
        exact fun e => (h c (by simp)) e.symm
      rw [if_neg (by simp [leadsWith, hpc])]
      exact ih s2 (fun a ha => h a (by simp [ha]))

theorem splitAfterFirst_eq_none {p : Char} {pat s : List Char}
    (h : ∀ c ∈ s, c ≠ p) : splitAfterFirst (p :: pat) s = none := by
  have := splitAfterFirst_headBlock pat s [] h
  simpa using this

theorem splitAfterFirst_step {p : Char} {pat : List Char} {c : Char} {t : List Char}
    (h : leadsWith (p :: pat) (c :: t) = false) :
    splitAfterFirst (p :: pat) (c :: t) = splitAfterFirst (p :: pat) t := by
  rw [splitAfterFirst, if_neg (by simp [h])]

theorem mem_of_head?_eq {α : Type} {l : List α} {a : α} (h : l.head? = some a) :
    a ∈ l := by
  cases l with
  | nil => cases h
  | cons x t =>
      simp only [List.head?_cons, Option.some.injEq] at h
      exact h ▸ List.mem_cons_self x t

theorem takeWhile_append_stop {p : Char → Bool} (xs : List Char) {y : Char}
    {ys : List Char} (hx : ∀ c ∈ xs, p c = true) (hy : p y = false) :
    (xs ++ y :: ys).takeWhile p = xs := by
  induction xs with
  | nil => simp [List.takeWhile_cons, hy]
  | cons x t ih =>
      simp only [List.cons_append, List.takeWhile_cons, hx x (by simp), if_pos]
      rw [ih (fun c hc => hx c (by simp [hc]))]

theorem drop_len_succ {α : Type} (xs : List α) (y : α) (ys : List α) :
    (xs ++ y :: ys).drop (xs.length + 1) = ys := by
  induction xs with
  | nil => rfl
  | cons x t ih => simp [ih]

theorem stripVersionSuffix_append (b ds : List Char) (hds : ds ≠ [])
    (hdig : ∀ c ∈ ds, isDigitCh c = true) :
    stripVersionSuffix (b ++ 'v' :: ds) = b := by
  have hrev : (b ++ 'v' :: ds).reverse = ds.reverse ++ 'v' :: b.reverse := by
    simp
  simp only [stripVersionSuffix]
  rw [hrev, takeWhile_append_stop ds.reverse
    (fun c hc => hdig c (List.mem_reverse.mp hc)) (by decide : isDigitCh 'v' = false)]
  rw [List.drop_left]
  rw [if_pos ⟨by simpa using hds, rfl⟩]
  rw [drop_len_succ, List.reverse_reverse]

theorem stripVersionSuffix_eq_self {s : List Char} (h : ∀ c ∈ s, c ≠ 'v') :
    stripVersionSuffix s = s := by
  simp only [stripVersionSuffix]
  rw [if_neg]
  rintro ⟨-, hv⟩
  have hm : 'v' ∈ s.reverse.drop (s.reverse.takeWhile isDigitCh).length :=
    mem_of_head?_eq hv
  exact h 'v' (List.mem_reverse.mp (List.mem_of_mem_drop hm)) rfl

theorem dropPdfExt_eq_self {s : List Char} {c : Char} {t : List Char}
    (hrev : s.reverse = c :: t) (hc : c ≠ 'f') : dropPdfExt s = s := by
  have hcond : ¬ (s.reverse.take 4 = ('f' :: 'd' :: 'p' :: '.' :: [])) := by
    rw [hrev]
    intro he
    rw [show (c :: t).take 4 = c :: t.take 3 from rfl] at he
    injection he with h1 _
    exact hc h1
  unfold dropPdfExt
  rw [if_neg hcond]

theorem dropPdfExt_append_ext (x : List Char) :
    dropPdfExt (x ++ ('.' :: 'p' :: 'd' :: 'f' :: [])) = x := by
  have hrev : (x ++ ('.' :: 'p' :: 'd' :: 'f' :: [])).reverse
      = 'f' :: 'd' :: 'p' :: '.' :: x.reverse := by simp
  have hcond : (x ++ ('.' :: 'p' :: 'd' :: 'f' :: [])).reverse.take 4
      = ('f' :: 'd' :: 'p' :: '.' :: []) := by
    rw [hrev]
    rfl
  unfold dropPdfExt
  rw [if_pos hcond]
  rw [show (x ++ ('.' :: 'p' :: 'd' :: 'f' :: [])).length - 4 = x.length by simp]
  exact List.take_left x _

theorem matchesArxivScheme_eq_false_of_head {c : Char} {t : List Char}
    (hc : toLowerCh c ≠ 'a') : matchesArxivScheme (c :: t) = false := by
  rcases t with _ | ⟨c2, _ | ⟨c3, _ | ⟨c4, _ | ⟨c5, _ | ⟨c6, rest⟩⟩⟩⟩⟩
  · rfl
  · rfl
  · rfl
  · rfl
  · rfl
  · simp [matchesArxivScheme, hc]

theorem stripArxivScheme_eq_self {s : List Char} {c : Char} {t : List Char}
    (hs : s = c :: t) (hc : toLowerCh c ≠ 'a') : stripArxivScheme s = s := by
  subst hs
  unfold stripArxivScheme
  rw [matchesArxivScheme_eq_false_of_head hc]
  rfl

theorem stripArxivScheme_scheme_append (b : List Char)
    (hb : ∀ c ∈ b, isSpaceCh c = false) :
    stripArxivScheme (('a' :: 'r' :: 'X' :: 'i' :: 'v' :: ':' :: []) ++ b) = b := by
  unfold stripArxivScheme
  rw [if_pos (by rfl)]
  rw [show ((('a' :: 'r' :: 'X' :: 'i' :: 'v' :: ':' :: []) ++ b).drop 6) = b from rfl]
  exact dropWhile_eq_self_of_forall hb

/-- A string on which every pipeline stage before the version-stripping acts
as the identity is normalized to its own version-stripped form. -/
theorem normalize_stages (X : List Char)
    (h1 : stripWs X = X) (h2 : stripArxivScheme X = X) (h3 : takeUntil '?' X = X)
    (h4 : rstripSlash X = X)
    (h5 : splitAfterFirst ("/abs/".toList) X = none)
    (h6 : splitAfterFirst ("/pdf/".toList) X = none)
    (h7 : dropPdfExt X = X) :
    normalize_arxiv_id X = (stripVersionSuffix X, X) := by
  simp only [normalize_arxiv_id]
  rw [h1, h2, h3, h4, h5, Option.getD_none, h6, Option.getD_none, h7, h1]

/-- Any string satisfying all the stage-identities of the normalization
pipeline is a fixed point of `normalize_arxiv_id` in both components. -/
theorem normalize_fixed (b : List Char)
    (h1 : stripWs b = b) (h2 : stripArxivScheme b = b) (h3 : takeUntil '?' b = b)
    (h4 : rstripSlash b = b)
    (h5 : splitAfterFirst ("/abs/".toList) b = none)
    (h6 : splitAfterFirst ("/pdf/".toList) b = none)
    (h7 : dropPdfExt b = b) (h8 : stripVersionSuffix b = b) :
    normalize_arxiv_id b = (b, b) := by
  rw [normalize_stages b h1 h2 h3 h4 h5 h6 h7, h8]

theorem split_abs_in_absUrl (tail : List Char) :
    splitAfterFirst ("/abs/".toList) ("https://arxiv.org/abs/".toList ++ tail)
      = some tail := by
  have hP : "/abs/".toList = '/' :: 'a' :: 'b' :: 's' :: '/' :: [] := by decide
  have hU : "https://arxiv.org/abs/".toList
      = "https:".toList
        ++ ('/' :: '/' :: ("arxiv.org".toList ++ ('/' :: 'a' :: 'b' :: 's' :: '/' :: []))) := by
    decide
  rw [hP, hU]
  simp only [List.append_assoc, List.cons_append]
  rw [splitAfterFirst_headBlock, splitAfterFirst_step, splitAfterFirst_step,
    splitAfterFirst_headBlock]
  · exact splitAfterFirst_cons_self '/' ('a' :: 'b' :: 's' :: '/' :: []) tail
  all_goals try rfl
  all_goals decide

theorem split_pdf_in_pdfUrl (tail : List Char) :
    splitAfterFirst ("/pdf/".toList) ("https://arxiv.org/pdf/".toList ++ tail)
      = some tail := by
  have hP : "/pdf/".toList = '/' :: 'p' :: 'd' :: 'f' :: '/' :: [] := by decide
  have hU : "https://arxiv.org/pdf/".toList
      = "https:".toList
        ++ ('/' :: '/' :: ("arxiv.org".toList ++ ('/' :: 'p' :: 'd' :: 'f' :: '/' :: []))) := by
    decide
  rw [hP, hU]
  simp only [List.append_assoc, List.cons_append]
  rw [splitAfterFirst_headBlock, splitAfterFirst_step, splitAfterFirst_step,
    splitAfterFirst_headBlock]
  · exact splitAfterFirst_cons_self '/' ('p' :: 'd' :: 'f' :: '/' :: []) tail
  all_goals try rfl
  all_goals decide

theorem split_abs_in_pdfUrl (b0 : Char) (rest : List Char) (hb0 : b0 ≠ 'a') :
    splitAfterFirst ("/abs/".toList) ("https://arxiv.org/pdf/".toList ++ b0 :: rest)
      = splitAfterFirst ("/abs/".toList) (b0 :: rest) := by
  have hP : "/abs/".toList = '/' :: 'a' :: 'b' :: 's' :: '/' :: [] := by decide
  have hU : "https://arxiv.org/pdf/".toList
      = "https:".toList
        ++ ('/' :: '/' :: ("arxiv.org".toList ++ ('/' :: 'p' :: 'd' :: 'f' :: '/' :: []))) := by
    decide
  rw [hP, hU]
  simp only [List.append_assoc, List.cons_append]
  have hba : ('a' == b0) = false := by
    simp only [beq_eq_false_iff_ne, ne_eq]
    exact fun e => hb0 e.symm
  rw [splitAfterFirst_headBlock, splitAfterFirst_step, splitAfterFirst_step,
    splitAfterFirst_headBlock, splitAfterFirst_step, splitAfterFirst_step,
    splitAfterFirst_step, splitAfterFirst_step, splitAfterFirst_step]
  all_goals try rfl
  all_goals try decide
  simp [leadsWith, hba]

/-! ### Assembly lemmas for the four accepted input shapes -/

theorem absPat_eq : "/abs/".toList = '/' :: 'a' :: 'b' :: 's' :: '/' :: [] := by
  decide

theorem pdfPat_eq : "/pdf/".toList = '/' :: 'p' :: 'd' :: 'f' :: '/' :: [] := by
  decide

theorem splitAbs_eq_none {s : List Char} (h : ∀ c ∈ s, c ≠ '/') :
    splitAfterFirst ("/abs/".toList) s = none := by
  rw [absPat_eq]
  exact splitAfterFirst_eq_none h

theorem splitPdf_eq_none {s : List Char} (h : ∀ c ∈ s, c ≠ '/') :
    splitAfterFirst ("/pdf/".toList) s = none := by
  rw [pdfPat_eq]
  exact splitAfterFirst_eq_none h

theorem forall_mem_append_ch {P : Char → Prop} {x y : List Char}
    (hx : ∀ c ∈ x, P c) (hy : ∀ c ∈ y, P c) : ∀ c ∈ x ++ y, P c := by
  intro c hc
  rcases List.mem_append.mp hc with h | h
  · exact hx c h
  · exact hy c h

theorem forall_mem_cons_ch {P : Char → Prop} {a : Char} {y : List Char}
    (ha : P a) (hy : ∀ c ∈ y, P c) : ∀ c ∈ a :: y, P c := by
  intro c hc
  rcases List.mem_cons.mp hc with rfl | h
  · exact ha
  · exact hy c h

theorem id_forall_ne {b : List Char} (hcls : ∀ c ∈ b, isIdCh c = true) (d : Char)
    (hd : ¬ ((48 ≤ d.toNat ∧ d.toNat ≤ 57) ∨ d.toNat = 46)) : ∀ c ∈ b, c ≠ d :=
  fun c hc => idCh_ne (hcls c hc) d hd

theorem dig_forall_ne {ds : List Char} (hdig : ∀ c ∈ ds, isDigitCh c = true)
    (d : Char) (hd : ¬ (48 ≤ d.toNat ∧ d.toNat ≤ 57)) : ∀ c ∈ ds, c ≠ d :=
  fun c hc => digitCh_ne (hdig c hc) d hd

theorem id_forall_not_space {b : List Char} (hcls : ∀ c ∈ b, isIdCh c = true) :
    ∀ c ∈ b, isSpaceCh c = false :=
  fun c hc => idCh_not_space (hcls c hc)

theorem dig_forall_not_space {ds : List Char} (hdig : ∀ c ∈ ds, isDigitCh c = true) :
    ∀ c ∈ ds, isSpaceCh c = false :=
  fun c hc => idCh_not_space (by simp [isIdCh, hdig c hc])

theorem takeUntil_cons_ne {c a : Char} {y : List Char} (h : a ≠ c) :
    takeUntil c (a :: y) = a :: takeUntil c y := by
  simp [takeUntil, h]

/-- A non-empty digits-and-dots identifier is a fixed point of the
normalizer. -/
theorem normalize_id_fixed {b : List Char} (hb : b ≠ [])
    (hcls : ∀ c ∈ b, isIdCh c = true) : normalize_arxiv_id b = (b, b) := by
  obtain ⟨b0, b', hb0⟩ := List.exists_cons_of_ne_nil hb
  obtain ⟨c0, t0, hrev⟩ := List.exists_cons_of_ne_nil
    (fun h : b.reverse = [] => hb (by simpa using h))
  have hc0 : isIdCh c0 = true := by
    refine hcls c0 (List.mem_reverse.mp ?_)
    rw [hrev]
    exact List.mem_cons_self c0 t0
  have hb0cls : isIdCh b0 = true := hcls b0 (by rw [hb0]; exact List.mem_cons_self b0 b')
  refine normalize_fixed b (stripWs_eq_self (id_forall_not_space hcls))
    (stripArxivScheme_eq_self hb0 ?_)
    (takeUntil_eq_self (id_forall_ne hcls '?' (by decide)))
    (rstripSlash_eq_self hrev (idCh_ne hc0 '/' (by decide)))
    (splitAbs_eq_none (id_forall_ne hcls '/' (by decide)))
    (splitPdf_eq_none (id_forall_ne hcls '/' (by decide)))
    (dropPdfExt_eq_self hrev (idCh_ne hc0 'f' (by decide)))
    (stripVersionSuffix_eq_self (id_forall_ne hcls 'v' (by decide)))
  rw [toLowerCh_of_idCh hb0cls]
  exact idCh_ne hb0cls 'a' (by decide)

/-- A versioned identifier normalizes to its base and itself. -/
theorem normalize_versioned (b ds : List Char) (hb : b ≠ [])
    (hcls : ∀ c ∈ b, isIdCh c = true) (hds : ds ≠ [])
    (hdig : ∀ c ∈ ds, isDigitCh c = true) :
    normalize_arxiv_id (b ++ 'v' :: ds) = (b, b ++ 'v' :: ds) := by
  obtain ⟨b0, b', hb0⟩ := List.exists_cons_of_ne_nil hb
  obtain ⟨dL, ds', hdseq⟩ := List.exists_cons_of_ne_nil
    (fun h : ds.reverse = [] => hds (by simpa using h))
  have hdLd : isDigitCh dL = true := by
    refine hdig dL (List.mem_reverse.mp ?_)
    rw [hdseq]
    exact List.mem_cons_self dL ds'
  have hb0cls : isIdCh b0 = true := hcls b0 (by rw [hb0]; exact List.mem_cons_self b0 b')
  have hXrev : (b ++ 'v' :: ds).reverse = dL :: (ds' ++ 'v' :: b.reverse) := by
    simp [hdseq]
  have hnosp : ∀ c ∈ b ++ 'v' :: ds, isSpaceCh c = false :=
    forall_mem_append_ch (id_forall_not_space hcls)
      (forall_mem_cons_ch (by decide) (dig_forall_not_space hdig))
  have hnoq : ∀ c ∈ b ++ 'v' :: ds, c ≠ '?' :=
    forall_mem_append_ch (id_forall_ne hcls '?' (by decide))
      (forall_mem_cons_ch (by decide) (dig_forall_ne hdig '?' (by decide)))
  have hnosl : ∀ c ∈ b ++ 'v' :: ds, c ≠ '/' :=
    forall_mem_append_ch (id_forall_ne hcls '/' (by decide))
      (forall_mem_cons_ch (by decide) (dig_forall_ne hdig '/' (by decide)))
  have hXcons : b ++ 'v' :: ds = b0 :: (b' ++ 'v' :: ds) := by
    rw [hb0]
    rfl
  rw [normalize_stages _ (stripWs_eq_self hnosp)
    (stripArxivScheme_eq_self hXcons
      (by rw [toLowerCh_of_idCh hb0cls]; exact idCh_ne hb0cls 'a' (by decide)))
    (takeUntil_eq_self hnoq)
    (rstripSlash_eq_self hXrev (digitCh_ne hdLd '/' (by decide)))
    (splitAbs_eq_none hnosl) (splitPdf_eq_none hnosl)
    (dropPdfExt_eq_self hXrev (digitCh_ne hdLd 'f' (by decide))),
    stripVersionSuffix_append b ds hds hdig]

/-- A scheme-prefixed identifier normalizes to the bare identifier. -/
theorem normalize_scheme_prefixed (b : List Char) (hb : b ≠ [])
    (hcls : ∀ c ∈ b, isIdCh c = true) :
    normalize_arxiv_id ("arXiv:".toList ++ b) = (b, b) := by
  obtain ⟨c0, t0, hrev⟩ := List.exists_cons_of_ne_nil
    (fun h : b.reverse = [] => hb (by simpa using h))
  have hc0 : isIdCh c0 = true := by
    refine hcls c0 (List.mem_reverse.mp ?_)
    rw [hrev]
    exact List.mem_cons_self c0 t0
  have hsch : "arXiv:".toList = 'a' :: 'r' :: 'X' :: 'i' :: 'v' :: ':' :: [] := by
    decide
  simp only [normalize_arxiv_id, hsch]
  rw [stripWs_eq_self (forall_mem_append_ch (by decide) (id_forall_not_space hcls)),
    stripArxivScheme_scheme_append b (id_forall_not_space hcls),
    takeUntil_eq_self (id_forall_ne hcls '?' (by decide)),
    rstripSlash_eq_self hrev (idCh_ne hc0 '/' (by decide)),
    splitAbs_eq_none (id_forall_ne hcls '/' (by decide)), Option.getD_none,
    splitPdf_eq_none (id_forall_ne hcls '/' (by decide)), Option.getD_none,
    dropPdfExt_eq_self hrev (idCh_ne hc0 'f' (by decide)),
    stripWs_eq_self (id_forall_not_space hcls),
    stripVersionSuffix_eq_self (id_forall_ne hcls 'v' (by decide))]

/-- An abstract-page URL with version suffix, trailing slash and query
string normalizes to the base identifier. -/
theorem normalize_absUrl (b ds : List Char) (hb : b ≠ [])
    (hcls : ∀ c ∈ b, isIdCh c = true) (hds : ds ≠ [])
    (hdig : ∀ c ∈ ds, isDigitCh c = true) :
    normalize_arxiv_id ("https://arxiv.org/abs/".toList ++ (b ++ 'v' :: ds)
        ++ "/?context=cs.LG".toList)
      = (b, b ++ 'v' :: ds) := by
  obtain ⟨dL, ds', hdseq⟩ := List.exists_cons_of_ne_nil
    (fun h : ds.reverse = [] => hds (by simpa using h))
  have hdLd : isDigitCh dL = true := by
    refine hdig dL (List.mem_reverse.mp ?_)
    rw [hdseq]
    exact List.mem_cons_self dL ds'
  have hXrev : (b ++ 'v' :: ds).reverse = dL :: (ds' ++ 'v' :: b.reverse) := by
    simp [hdseq]
  have hnospX : ∀ c ∈ b ++ 'v' :: ds, isSpaceCh c = false :=
    forall_mem_append_ch (id_forall_not_space hcls)
      (forall_mem_cons_ch (by decide) (dig_forall_not_space hdig))
  have hnoqX : ∀ c ∈ b ++ 'v' :: ds, c ≠ '?' :=
    forall_mem_append_ch (id_forall_ne hcls '?' (by decide))
      (forall_mem_cons_ch (by decide) (dig_forall_ne hdig '?' (by decide)))
  have hnoslX : ∀ c ∈ b ++ 'v' :: ds, c ≠ '/' :=
    forall_mem_append_ch (id_forall_ne hcls '/' (by decide))
      (forall_mem_cons_ch (by decide) (dig_forall_ne hdig '/' (by decide)))
  have hQ : "/?context=cs.LG".toList = '/' :: '?' :: "context=cs.LG".toList := by
    decide
  have hU : "https://arxiv.org/abs/".toList
      = 'h' :: "ttps://arxiv.org/abs/".toList := by decide
  have hUXrev : ("https://arxiv.org/abs/".toList ++ (b ++ 'v' :: ds)).reverse
      = dL :: (ds' ++ 'v' :: (b.reverse ++ "https://arxiv.org/abs/".toList.reverse)) := by
    simp [hdseq]
  have hIcons : ("https://arxiv.org/abs/".toList ++ (b ++ 'v' :: ds))
        ++ ('/' :: '?' :: "context=cs.LG".toList)
      = 'h' :: (("ttps://arxiv.org/abs/".toList ++ (b ++ 'v' :: ds))
        ++ ('/' :: '?' :: "context=cs.LG".toList)) := by
    rw [hU]
    rfl
  have hnospI : ∀ c ∈ ("https://arxiv.org/abs/".toList ++ (b ++ 'v' :: ds))
      ++ ('/' :: '?' :: "context=cs.LG".toList), isSpaceCh c = false :=
    forall_mem_append_ch (forall_mem_append_ch (by decide) hnospX) (by decide)
  have hUnoq : ∀ a ∈ "https://arxiv.org/abs/".toList ++ (b ++ 'v' :: ds), a ≠ '?' :=
    forall_mem_append_ch (by decide) hnoqX
  simp only [normalize_arxiv_id]
  rw [hQ, stripWs_eq_self hnospI, stripArxivScheme_eq_self hIcons (by decide),
    takeUntil_append hUnoq,
    show takeUntil '?' ('/' :: '?' :: "context=cs.LG".toList) = '/' :: [] from rfl,
    rstripSlash_append_slash hUXrev (digitCh_ne hdLd '/' (by decide)),
    split_abs_in_absUrl, Option.getD_some,
    splitPdf_eq_none hnoslX, Option.getD_none,
    dropPdfExt_eq_self hXrev (digitCh_ne hdLd 'f' (by decide)),
    stripWs_eq_self hnospX,
    stripVersionSuffix_append b ds hds hdig]

/-- A document-page URL with version suffix and `.pdf` extension normalizes
to the base identifier. -/
theorem normalize_pdfUrl (b ds : List Char) (hb : b ≠ [])
    (hcls : ∀ c ∈ b, isIdCh c = true) (hds : ds ≠ [])
    (hdig : ∀ c ∈ ds, isDigitCh c = true) :
    normalize_arxiv_id ("https://arxiv.org/pdf/".toList ++ (b ++ 'v' :: ds)
        ++ ".pdf".toList)
      = (b, b ++ 'v' :: ds) := by
  obtain ⟨b0, b', hb0⟩ := List.exists_cons_of_ne_nil hb
  subst hb0
  obtain ⟨hb0cls, hcls'⟩ := List.forall_mem_cons.mp hcls
  have hb0a : b0 ≠ 'a' := idCh_ne hb0cls 'a' (by decide)
  have hnospds : ∀ c ∈ ds, isSpaceCh c = false := dig_forall_not_space hdig
  have hE : ".pdf".toList = '.' :: 'p' :: 'd' :: 'f' :: [] := by decide
  have hU : "https://arxiv.org/pdf/".toList
      = 'h' :: "ttps://arxiv.org/pdf/".toList := by decide
  have hassoc : ("https://arxiv.org/pdf/".toList ++ ((b0 :: b') ++ 'v' :: ds)
        ++ ".pdf".toList)
      = "https://arxiv.org/pdf/".toList
        ++ b0 :: (b' ++ 'v' :: (ds ++ ('.' :: 'p' :: 'd' :: 'f' :: []))) := by
    rw [hE]
    simp
  have hJrev : ("https://arxiv.org/pdf/".toList
        ++ b0 :: (b' ++ 'v' :: (ds ++ ('.' :: 'p' :: 'd' :: 'f' :: [])))).reverse
      = 'f' :: ('d' :: 'p' :: '.' :: (ds.reverse ++ 'v' :: (b'.reverse
          ++ b0 :: "https://arxiv.org/pdf/".toList.reverse))) := by
    simp
  have htail : ∀ c ∈ b' ++ 'v' :: (ds ++ ('.' :: 'p' :: 'd' :: 'f' :: [])),
      isSpaceCh c = false :=
    forall_mem_append_ch (id_forall_not_space hcls')
      (forall_mem_cons_ch (by decide)
        (forall_mem_append_ch hnospds (by decide)))
  have hnospJ : ∀ c ∈ "https://arxiv.org/pdf/".toList
      ++ b0 :: (b' ++ 'v' :: (ds ++ ('.' :: 'p' :: 'd' :: 'f' :: []))),
      isSpaceCh c = false :=
    forall_mem_append_ch (by decide)
      (forall_mem_cons_ch (idCh_not_space hb0cls) htail)
  have hnoqJ : ∀ a ∈ "https://arxiv.org/pdf/".toList
      ++ b0 :: (b' ++ 'v' :: (ds ++ ('.' :: 'p' :: 'd' :: 'f' :: []))), a ≠ '?' :=
    forall_mem_append_ch (by decide)
      (forall_mem_cons_ch (idCh_ne hb0cls '?' (by decide))
        (forall_mem_append_ch (id_forall_ne hcls' '?' (by decide))
          (forall_mem_cons_ch (by decide)
            (forall_mem_append_ch (dig_forall_ne hdig '?' (by decide)) (by decide)))))
  have hnosl_tail : ∀ c ∈ b0 :: (b' ++ 'v' :: (ds ++ ('.' :: 'p' :: 'd' :: 'f' :: []))),
      c ≠ '/' :=
    forall_mem_cons_ch (idCh_ne hb0cls '/' (by decide))
      (forall_mem_append_ch (id_forall_ne hcls' '/' (by decide))
        (forall_mem_cons_ch (by decide)
          (forall_mem_append_ch (dig_forall_ne hdig '/' (by decide)) (by decide))))
  have hJcons : "https://arxiv.org/pdf/".toList
        ++ b0 :: (b' ++ 'v' :: (ds ++ ('.' :: 'p' :: 'd' :: 'f' :: [])))
      = 'h' :: ("ttps://arxiv.org/pdf/".toList
        ++ b0 :: (b' ++ 'v' :: (ds ++ ('.' :: 'p' :: 'd' :: 'f' :: [])))) := by
    rw [hU]
    rfl
  have habsJ : splitAfterFirst ("/abs/".toList) ("https://arxiv.org/pdf/".toList
        ++ b0 :: (b' ++ 'v' :: (ds ++ ('.' :: 'p' :: 'd' :: 'f' :: [])))) = none := by
    rw [split_abs_in_pdfUrl b0 _ hb0a]
    exact splitAbs_eq_none hnosl_tail
  have hXrev2 : (b0 :: (b' ++ 'v' :: ds)).reverse
      = (ds.reverse ++ 'v' :: (b'.reverse ++ b0 :: [])) := by
    simp
  rw [hassoc]
  simp only [normalize_arxiv_id]
  rw [stripWs_eq_self hnospJ, stripArxivScheme_eq_self hJcons (by decide),
    takeUntil_eq_self hnoqJ,
    rstripSlash_eq_self hJrev (by decide),
    habsJ, Option.getD_none]
  rw [show "https://arxiv.org/pdf/".toList
        ++ b0 :: (b' ++ 'v' :: (ds ++ ('.' :: 'p' :: 'd' :: 'f' :: [])))
      = "https://arxiv.org/pdf/".toList
        ++ (b0 :: (b' ++ 'v' :: (ds ++ ('.' :: 'p' :: 'd' :: 'f' :: [])))) from rfl,
    split_pdf_in_pdfUrl, Option.getD_some]
  rw [show b0 :: (b' ++ 'v' :: (ds ++ ('.' :: 'p' :: 'd' :: 'f' :: [])))
      = (b0 :: (b' ++ 'v' :: ds)) ++ ('.' :: 'p' :: 'd' :: 'f' :: []) from by simp,
    dropPdfExt_append_ext,
    stripWs_eq_self (forall_mem_cons_ch (idCh_not_space hb0cls)
      (forall_mem_append_ch (id_forall_not_space hcls')
        (forall_mem_cons_ch (by decide) hnospds))),
    show b0 :: (b' ++ 'v' :: ds) = (b0 :: b') ++ 'v' :: ds from rfl,
    stripVersionSuffix_append (b0 :: b') ds hds hdig]

/-! ### Claim C6 -/

/-- C6, counterexample: `normalize_arxiv_id` is not idempotent on the base
identifier it returns for an arbitrary input.  For `"1234v1v2"` the
regex `v\d+$` strips only the final `v2`, so the returned base is
`"1234v1"`; feeding that base back in strips `v1` as well, so the base
component changes, contradicting the claim that normalizing the returned
base gives it back unchanged as both components. -/
theorem claim_C6_counterexample :
    (normalize_arxiv_id ("1234v1v2".toList)).1 = "1234v1".toList ∧
    normalize_arxiv_id ("1234v1".toList)
      ≠ ("1234v1".toList, "1234v1".toList) := by
  decide

/-- C6 (amended): `normalize_arxiv_id` is a pure function that is idempotent
on normal-form identifiers: whenever the base `b` is itself fully
normalized — no surrounding whitespace, no `arxiv:` scheme prefix, no `?`
query delimiter, no trailing slash, no `/abs/` or `/pdf/` path segment, no
trailing `.pdf` extension, and no trailing `v<digits>` version suffix —
`normalize_arxiv_id b` returns `b` unchanged as both its base and its
version-qualified component.  (The unrestricted claim is false: the base
returned for an arbitrary input may itself still carry a version suffix,
as the counterexample `"1234v1v2"` shows.) -/
theorem claim_C6_idempotent_on_normal_forms (b : List Char)
    (h1 : stripWs b = b) (h2 : stripArxivScheme b = b) (h3 : takeUntil '?' b = b)
    (h4 : rstripSlash b = b)
    (h5 : splitAfterFirst ("/abs/".toList) b = none)
    (h6 : splitAfterFirst ("/pdf/".toList) b = none)
    (h7 : dropPdfExt b = b) (h8 : stripVersionSuffix b = b) :
    normalize_arxiv_id b = (b, b) :=
  normalize_fixed b h1 h2 h3 h4 h5 h6 h7 h8

/-- Witness for C6 at the concrete normal-form identifier `"2301.04104"`. -/
theorem claim_C6_witness :
    normalize_arxiv_id ("2301.04104".toList)
      = ("2301.04104".toList, "2301.04104".toList) :=
  claim_C6_idempotent_on_normal_forms ("2301.04104".toList) (by decide) (by decide)
    (by decide) (by decide) (by decide) (by decide) (by decide) (by decide)

/-! ### Claim C7 -/

/-- C7: for every paper — modelled by a non-empty base identifier `b` made
of digits and dots, together with a non-empty digit string `ds` for its
version number — the four accepted input shapes (bare base id; bare
versioned id; scheme-prefixed id; full abstract-page URL with version,
trailing slash and query string; full document-page URL with version and
`.pdf` extension) all normalize to the identical base identifier `b`. -/
theorem claim_C7_four_shapes_same_base (b ds : List Char) (hb : b ≠ [])
    (hcls : ∀ c ∈ b, isIdCh c = true) (hds : ds ≠ [])
    (hdig : ∀ c ∈ ds, isDigitCh c = true) :
    (normalize_arxiv_id b).1 = b ∧
    (normalize_arxiv_id (b ++ 'v' :: ds)).1 = b ∧
    (normalize_arxiv_id ("arXiv:".toList ++ b)).1 = b ∧
    (normalize_arxiv_id ("https://arxiv.org/abs/".toList ++ (b ++ 'v' :: ds)
        ++ "/?context=cs.LG".toList)).1 = b ∧
    (normalize_arxiv_id ("https://arxiv.org/pdf/".toList ++ (b ++ 'v' :: ds)
        ++ ".pdf".toList)).1 = b := by
  refine ⟨?_, ?_, ?_, ?_, ?_⟩
  · rw [normalize_id_fixed hb hcls]
  · rw [normalize_versioned b ds hb hcls hds hdig]
  · rw [normalize_scheme_prefixed b hb hcls]
  · rw [normalize_absUrl b ds hb hcls hds hdig]
  · rw [normalize_pdfUrl b ds hb hcls hds hdig]

/-- Witness for C7 at the concrete paper `2301.04104`, version `v2`. -/
theorem claim_C7_witness :
    (normalize_arxiv_id ("2301.04104".toList)).1 = "2301.04104".toList ∧
    (normalize_arxiv_id ("2301.04104".toList ++ 'v' :: "2".toList)).1
      = "2301.04104".toList ∧
    (normalize_arxiv_id ("arXiv:".toList ++ "2301.04104".toList)).1
      = "2301.04104".toList ∧
    (normalize_arxiv_id ("https://arxiv.org/abs/".toList
        ++ ("2301.04104".toList ++ 'v' :: "2".toList)
        ++ "/?context=cs.LG".toList)).1 = "2301.04104".toList ∧
    (normalize_arxiv_id ("https://arxiv.org/pdf/".toList
        ++ ("2301.04104".toList ++ 'v' :: "2".toList)
        ++ ".pdf".toList)).1 = "2301.04104".toList :=
  claim_C7_four_shapes_same_base ("2301.04104".toList) ("2".toList) (by decide)
    (by decide) (by decide) (by decide)

/-! ### Claim C4 -/

theorem year_from_published_ne_nil (p : Option (List Char)) :
    year_from_published p ≠ [] := by
  match p with
  | none => simp [year_from_published]
  | some s =>
      simp only [year_from_published]
      split
      · simp
      · split
        · rename_i h
          intro he
          have h4 : ((stripWs s).take 4).length = 4 := by
            rw [List.length_take]
            omega
          rw [he] at h4
          simp at h4
        · simp

/-- C4: the base citation key always equals the concatenation
`normalize_key_token (surname of first author) ++ year ++
normalize_key_token (first title token)` — the empty-base fallback of the
code is unreachable because the year component is never empty — and the
concrete work (first author `"Doe, Jane"`, published `"2023-05-01…"`,
title `"Scaling Transformers"`) gets base key `"doe2023scaling"`. -/
theorem claim_C4_base_key_derivation :
    (∀ (a p : Option (List Char)) (title arxiv_id : List Char),
      citation_base_key a p title arxiv_id
        = normalize_key_token (match a with
            | some n => surname_from_author n
            | none => [])
          ++ year_from_published p
          ++ normalize_key_token (first_title_token title)) ∧
    citation_base_key (some ("Doe, Jane".toList))
      (some ("2023-05-01T00:00:00Z".toList)) ("Scaling Transformers".toList)
      ("2301.04104".toList) = "doe2023scaling".toList := by
  constructor
  · intro a p title arxiv_id
    simp only [citation_base_key]
    rw [if_neg]
    intro he
    rcases List.append_eq_nil.mp he with ⟨h1, h2⟩
    rcases List.append_eq_nil.mp h1 with ⟨-, hy⟩
    exact year_from_published_ne_nil p hy
  · decide

/-! ### Claim C9 -/

theorem find?_append_of_none {α : Type} {p : α → Bool} {xs ys : List α}
    (h : xs.find? p = none) : (xs ++ ys).find? p = ys.find? p := by
  induction xs with
  | nil => rfl
  | cons x t ih =>
      by_cases hp : p x
      · rw [List.find?_cons_of_pos _ hp] at h
        cases h
      · rw [List.find?_cons_of_neg _ hp] at h
        rw [List.cons_append, List.find?_cons_of_neg _ hp]
        exact ih h

/-- C9: `ensure_citation_key` is write-once and idempotent.  A work that
already has a stored key gets that key back with the state unchanged, and
after any successful call a second call returns the same key and performs
no write (the state is returned unchanged). -/
theorem claim_C9_ensure_citation_key_idempotent (st : RegistryState) (wid : Nat)
    (now1 now2 : List Char) :
    (∀ r, findKeyRow st.citation_keys wid = some r →
      ensure_citation_key st wid now1 = .ok (st, r.key)) ∧
    (∀ st1 k, ensure_citation_key st wid now1 = .ok (st1, k) →
      ensure_citation_key st1 wid now2 = .ok (st1, k)) := by
  constructor
  · intro r hr
    simp [ensure_citation_key, hr]
  · intro st1 k h
    match hfind : findKeyRow st.citation_keys wid with
    | some r =>
        rw [ensure_citation_key, hfind] at h
        injection h with h1
        injection h1 with h2 h3
        subst h2
        subst h3
        simp [ensure_citation_key, hfind]
    | none =>
        rw [ensure_citation_key] at h
        match hw : findWorkById st.works wid with
        | none =>
            simp only [hfind, hw] at h
            cases h
        | some w =>
            simp only [hfind, hw] at h
            by_cases hc : (findKeyByKey st.citation_keys
                (chooseCandidate st.citation_keys w
                  (citation_base_key (firstAuthorName st wid) w.published
                    w.title w.arxiv_id))).isSome = true
            · rw [if_pos hc] at h
              cases h
            · rw [if_neg hc] at h
              injection h with h1
              injection h1 with h2 h3
              subst h2
              subst h3
              have hrow : findKeyRow ({ st with citation_keys := st.citation_keys
                  ++ ⟨wid, chooseCandidate st.citation_keys w
                        (citation_base_key (firstAuthorName st wid) w.published
                          w.title w.arxiv_id),
                      citation_base_key (firstAuthorName st wid) w.published
                        w.title w.arxiv_id, now1⟩ :: [] } : RegistryState).citation_keys wid
                  = some ⟨wid, chooseCandidate st.citation_keys w
                        (citation_base_key (firstAuthorName st wid) w.published
                          w.title w.arxiv_id),
                      citation_base_key (firstAuthorName st wid) w.published
                        w.title w.arxiv_id, now1⟩ := by
                show findKeyRow (st.citation_keys ++ _ :: []) wid = _
                rw [findKeyRow, find?_append_of_none hfind]
                simp [List.find?_cons]
              rw [ensure_citation_key, hrow]

/-- Witness for C9: after generating the key for work 1 of
`twoWorksState`, a second call returns the same key and leaves the
registry unchanged. -/
theorem claim_C9_witness :
    ensure_citation_key twoWorksKeyed 1 ("T2".toList)
      = .ok (twoWorksKeyed, "doe2023scaling".toList) :=
  (claim_C9_ensure_citation_key_idempotent twoWorksState 1 ("T1".toList)
    ("T2".toList)).2 twoWorksKeyed ("doe2023scaling".toList) (by decide)

/-! ### Claim C3 -/

theorem natToCharsAux_ne_nil (fuel n : Nat) : natToCharsAux (fuel + 1) n ≠ [] := by
  rw [natToCharsAux]
  split
  · simp
  · simp

theorem natToChars_ne_nil (n : Nat) : natToChars n ≠ [] :=
  natToCharsAux_ne_nil n n

theorem keySuffix_ne_nil (w : WorksRow) : keySuffix w ≠ [] := by
  rw [keySuffix]
  split
  · rename_i h
    rw [lastN]
    intro he
    have hlen := congrArg List.length he
    simp only [List.length_drop, List.length_nil] at hlen
    have hl : (digitsOf w.arxiv_id).length ≠ 0 := by
      simpa [List.length_eq_zero] using h
    omega
  · exact natToChars_ne_nil _

theorem keys_update (s : RegistryState) (ks : List KeyRow) :
    ({ s with citation_keys := ks } : RegistryState).citation_keys = ks := rfl

theorem works_update_keys (s : RegistryState) (ks : List KeyRow) :
    ({ s with citation_keys := ks } : RegistryState).works = s.works := rfl

theorem firstAuthorName_update_keys (s : RegistryState) (ks : List KeyRow)
    (wid : Nat) :
    firstAuthorName { s with citation_keys := ks } wid = firstAuthorName s wid := rfl

theorem append_suffix_ne_self {b s : List Char} (hs : s ≠ []) : b ++ s ≠ b := by
  intro h
  have hlen := congrArg List.length h
  rw [List.length_append] at hlen
  have : s.length = 0 := by omega
  exact hs (List.length_eq_zero.mp this)

/-- C3: starting from a registry with no citation keys, two works with the
same derived base key receive, in call order, the bare base and the base
suffixed with `keySuffix` (the last six digits of the identifier's numeric
portion, or the internal work id when there are none); the two keys are
distinct, and key generation always preserves registry-wide key
uniqueness.  The keys are given by closed formulas over the works alone,
so re-running generation from scratch in the same order reproduces the
same assignment. -/
theorem claim_C3_collision_policy (st : RegistryState) (w1 w2 : WorksRow)
    (now1 now2 : List Char)
    (hkeys : st.citation_keys = [])
    (hw1 : findWorkById st.works w1.work_id = some w1)
    (hw2 : findWorkById st.works w2.work_id = some w2)
    (hne : w1.work_id ≠ w2.work_id)
    (hbase : citation_base_key (firstAuthorName st w1.work_id) w1.published
          w1.title w1.arxiv_id
        = citation_base_key (firstAuthorName st w2.work_id) w2.published
          w2.title w2.arxiv_id) :
    (∃ st1 st2 k1 k2,
      ensure_citation_key st w1.work_id now1 = .ok (st1, k1) ∧
      ensure_citation_key st1 w2.work_id now2 = .ok (st2, k2) ∧
      k1 = citation_base_key (firstAuthorName st w1.work_id) w1.published
        w1.title w1.arxiv_id ∧
      k2 = k1 ++ keySuffix w2 ∧
      k1 ≠ k2 ∧
      (st2.citation_keys.map (fun r => r.key)).Nodup) ∧
    (∀ (s s' : RegistryState) (wid : Nat) (nw kk : List Char),
      (s.citation_keys.map (fun r => r.key)).Nodup →
      ensure_citation_key s wid nw = .ok (s', kk) →
      (s'.citation_keys.map (fun r => r.key)).Nodup) := by
  have hgen : ∀ (s s' : RegistryState) (wid : Nat) (nw kk : List Char),
      (s.citation_keys.map (fun r => r.key)).Nodup →
      ensure_citation_key s wid nw = .ok (s', kk) →
      (s'.citation_keys.map (fun r => r.key)).Nodup := by
    intro s s' wid nw kk hnd h
    match hfind : findKeyRow s.citation_keys wid with
    | some r =>
        rw [ensure_citation_key] at h
        simp only [hfind] at h
        injection h with h1
        injection h1 with h2 h3
        subst h2
        exact hnd
    | none =>
        rw [ensure_citation_key] at h
        match hw : findWorkById s.works wid with
        | none =>
            simp only [hfind, hw] at h
            cases h
        | some w =>
            simp only [hfind, hw] at h
            by_cases hc : (findKeyByKey s.citation_keys
                (chooseCandidate s.citation_keys w
                  (citation_base_key (firstAuthorName s wid) w.published
                    w.title w.arxiv_id))).isSome = true
            · rw [if_pos hc] at h
              cases h
            · rw [if_neg hc] at h
              injection h with h1
              injection h1 with h2 h3
              subst h2
              rw [keys_update, List.map_append, List.nodup_append]
              refine ⟨hnd, by simp, ?_⟩
              intro a ha
              simp only [List.map_cons, List.map_nil, List.mem_cons,
                List.not_mem_nil, or_false]
              rcases List.mem_map.mp ha with ⟨r, hr, hkey⟩
              intro he
              have hnone := Option.not_isSome_iff_eq_none.mp hc
              have := List.find?_eq_none.mp hnone r hr
              apply this
              rw [beq_iff_eq, hkey, he]
  constructor
  · set B := citation_base_key (firstAuthorName st w1.work_id) w1.published
      w1.title w1.arxiv_id with hB
    have hsuf : B ≠ B ++ keySuffix w2 :=
      (append_suffix_ne_self (keySuffix_ne_nil w2)).symm
    have hcall1 : ensure_citation_key st w1.work_id now1
        = .ok ({ st with citation_keys := ⟨w1.work_id, B, B, now1⟩ :: [] }, B) := by
      rw [ensure_citation_key]
      simp only [hkeys, findKeyRow, List.find?_nil, hw1, chooseCandidate,
        findKeyByKey, Option.isSome_none, List.nil_append, Bool.false_eq_true,
        if_false]
    have hfr2 : findKeyRow ((⟨w1.work_id, B, B, now1⟩ : KeyRow) :: []) w2.work_id
        = none := by
      rw [findKeyRow, List.find?_cons_of_neg, List.find?_nil]
      simp only [beq_iff_eq]
      exact hne
    have hfk1 : findKeyByKey ((⟨w1.work_id, B, B, now1⟩ : KeyRow) :: []) B
        = some ⟨w1.work_id, B, B, now1⟩ := by
      rw [findKeyByKey, List.find?_cons_of_pos]
      simp
    have hfk2 : findKeyByKey ((⟨w1.work_id, B, B, now1⟩ : KeyRow) :: [])
        (B ++ keySuffix w2) = none := by
      rw [findKeyByKey, List.find?_cons_of_neg, List.find?_nil]
      simp only [beq_iff_eq]
      exact hsuf
    have hcand : chooseCandidate ((⟨w1.work_id, B, B, now1⟩ : KeyRow) :: []) w2 B
        = B ++ keySuffix w2 := by
      rw [chooseCandidate]
      simp [hfk1, hfk2, hne]
    have hcall2 : ensure_citation_key
        { st with citation_keys := ⟨w1.work_id, B, B, now1⟩ :: [] }
        w2.work_id now2
        = .ok ({ st with citation_keys := ⟨w1.work_id, B, B, now1⟩ ::
            ⟨w2.work_id, B ++ keySuffix w2, B, now2⟩ :: [] },
          B ++ keySuffix w2) := by
      rw [ensure_citation_key]
      simp only [keys_update, works_update_keys, firstAuthorName_update_keys,
        hfr2, hw2, ← hbase, ← hB, hcand, hfk2, Option.isSome_none,
        Bool.false_eq_true, if_false, List.singleton_append]
    refine ⟨_, _, B, B ++ keySuffix w2, hcall1, hcall2, rfl, rfl, hsuf, ?_⟩
    simp only [keys_update, List.map_cons, List.map_nil]
    simp [hsuf]
  · exact hgen

/-- Witness for C3 on `twoWorksState`: the two colliding works receive
`doe2023scaling` and `doe2023scaling599999`. -/
theorem claim_C3_witness :
    (∃ st1 st2 k1 k2,
      ensure_citation_key twoWorksState rowW1.work_id ("T1".toList)
        = .ok (st1, k1) ∧
      ensure_citation_key st1 rowW2.work_id ("T2".toList) = .ok (st2, k2) ∧
      k1 = citation_base_key (firstAuthorName twoWorksState rowW1.work_id)
        rowW1.published rowW1.title rowW1.arxiv_id ∧
      k2 = k1 ++ keySuffix rowW2 ∧ k1 ≠ k2 ∧
      (st2.citation_keys.map (fun r => r.key)).Nodup) ∧
    (∀ (s s' : RegistryState) (wid : Nat) (nw kk : List Char),
      (s.citation_keys.map (fun r => r.key)).Nodup →
      ensure_citation_key s wid nw = .ok (s', kk) →
      (s'.citation_keys.map (fun r => r.key)).Nodup) :=
  claim_C3_collision_policy twoWorksState rowW1 rowW2 ("T1".toList) ("T2".toList)
    (by decide) (by decide) (by decide) (by decide) (by decide)

/-! ### Claim C10 -/

theorem orElse_none_fn (o : Option (List Char)) :
    (o.orElse fun _ => none) = o := by
  cases o <;> rfl

/-- C10: when the write of `upsert_work` raises the doi uniqueness
violation, the operation retries the identical write with a null doi; under
the registry's doi-uniqueness invariant the retry succeeds and the caller
receives a successful result — the conflict is never surfaced. -/
theorem claim_C10_doi_conflict_recovery (st : RegistryState) (w : WorkRecord)
    (now : List Char)
    (hdoi : ∀ r1 ∈ st.works, ∀ r2 ∈ st.works, r1.work_id ≠ r2.work_id →
      r1.doi ≠ none → r1.doi ≠ r2.doi)
    (hconf : runUpsert st w w.doi now = .error ()) :
    ∃ works' wid next', runUpsert st w none now = .ok (works', wid, next') ∧
      ∃ st', upsert_work st w now = .ok (st', wid) ∧ st'.works = works' := by
  have hok : ∃ works' wid next',
      runUpsert st w none now = .ok (works', wid, next') := by
    rw [runUpsert]
    match hf : findWork st.works w.arxiv_id with
    | some old =>
        have hmem : old ∈ st.works := by
          have := List.mem_of_find?_eq_some hf
          exact this
        have hdval : (mergedRow old w none now).doi = old.doi := by
          rw [mergedRow]
          exact orElse_none_fn old.doi
        have hid : (mergedRow old w none now).work_id = old.work_id := rfl
        have hnc : doiConflict st.works (mergedRow old w none now) = false := by
          rw [doiConflict, hdval, hid]
          match ho : old.doi with
          | none => rfl
          | some d =>
              rw [List.any_eq_false]
              intro r hr
              simp only [Bool.and_eq_true, bne_iff_ne, ne_eq, beq_iff_eq, not_and]
              intro hrne hrd
              have := hdoi old hmem r hr (fun e => hrne (e.symm)) (by simp [ho])
              rw [ho, hrd] at this
              exact this rfl
        simp only [hnc, Bool.false_eq_true, if_false]
        exact ⟨_, _, _, rfl⟩
    | none =>
        have hnc : doiConflict st.works (freshRow st.next_work_id w none now)
            = false := rfl
        simp only [hnc, Bool.false_eq_true, if_false]
        exact ⟨_, _, _, rfl⟩
  obtain ⟨works', wid, next', hok⟩ := hok
  refine ⟨works', wid, next', hok, ?_⟩
  rw [upsert_work]
  simp only [hconf, hok]
  exact ⟨_, rfl, rfl⟩

/-- Witness for C10: upserting `recConflict` (whose doi equals the stored
doi of `rowW1`) into `oneWorkState` recovers by writing a null doi. -/
theorem claim_C10_witness :
    ∃ works' wid next',
      runUpsert oneWorkState recConflict none ("T1".toList)
        = .ok (works', wid, next') ∧
      ∃ st', upsert_work oneWorkState recConflict ("T1".toList)
        = .ok (st', wid) ∧ st'.works = works' :=
  claim_C10_doi_conflict_recovery oneWorkState recConflict ("T1".toList)
    (by decide) (by decide)

/-! ### Claim C8 -/

/-- A successful match after an `@` splits the following text exactly into
the part before the key span, the key span itself, and the rest. -/
theorem matchAfterAt_decomp {t mid key post : List Char}
    (h : matchAfterAt t = some (mid, key, post)) : t = mid ++ key ++ post := by
  simp only [matchAfterAt] at h
  split at h
  · cases h
  · split at h
    · cases h
    · rename_i c u heq
      split at h
      · rename_i hlb
        subst hlb
        split at h
        · rename_i rest hdc
          split at h
          · cases h
          · rename_i hbne
            simp only [Option.some.injEq, Prod.mk.injEq] at h
            obtain ⟨h1, h2, h3⟩ := h
            subst h1
            subst h2
            subst h3
            have ht : t = t.takeWhile isWordCh ++ t.dropWhile isWordCh :=
              (List.takeWhile_append_dropWhile _ _).symm
            have ht1 : t.dropWhile isWordCh
                = (t.dropWhile isWordCh).takeWhile isSpaceCh
                  ++ (t.dropWhile isWordCh).dropWhile isSpaceCh :=
              (List.takeWhile_append_dropWhile _ _).symm
            have hu : u = u.takeWhile (fun x => x ≠ ',')
                ++ u.dropWhile (fun x => x ≠ ',') :=
              (List.takeWhile_append_dropWhile _ _).symm
            rw [hdc] at hu
            by_cases hws : (u.takeWhile (fun x => x ≠ ',')).dropWhile isSpaceCh = []
            · rw [if_pos hws, if_pos hws]
              have hbefore : u.takeWhile (fun x => x ≠ ',')
                  = (u.takeWhile (fun x => x ≠ ',')).take
                      ((u.takeWhile (fun x => x ≠ ',')).length - 1)
                    ++ (u.takeWhile (fun x => x ≠ ',')).drop
                      ((u.takeWhile (fun x => x ≠ ',')).length - 1) :=
                (List.take_append_drop _ _).symm
              conv_lhs => rw [ht, ht1, heq, hu, hbefore]
              simp [List.append_assoc]
            · rw [if_neg hws, if_neg hws]
              have hbefore : u.takeWhile (fun x => x ≠ ',')
                  = (u.takeWhile (fun x => x ≠ ',')).takeWhile isSpaceCh
                    ++ (u.takeWhile (fun x => x ≠ ',')).dropWhile isSpaceCh :=
                (List.takeWhile_append_dropWhile _ _).symm
              conv_lhs => rw [ht, ht1, heq, hu, hbefore]
              simp [List.append_assoc]
        · cases h
      · cases h

/-- The leftmost-match scanner splits the input into prefix, key span and
suffix. -/
theorem findKeySpan_decomp : ∀ (s acc pre key post : List Char),
    findKeySpan acc s = some (pre, key, post) → acc ++ s = pre ++ key ++ post := by
  intro s
  induction s with
  | nil =>
      intro acc pre key post h
      cases h
  | cons c t ih =>
      intro acc pre key post h
      rw [findKeySpan] at h
      by_cases hc : c = '@'
      · rw [if_pos hc] at h
        match hm : matchAfterAt t with
        | some (mid, k2, p2) =>
            simp only [hm, Option.some.injEq, Prod.mk.injEq] at h
            obtain ⟨h1, h2, h3⟩ := h
            subst h1
            subst h2
            subst h3
            rw [matchAfterAt_decomp hm]
            simp [List.append_assoc]
        | none =>
            simp only [hm] at h
            have := ih (acc ++ c :: []) pre key post h
            simpa using this
      · rw [if_neg hc] at h
        have := ih (acc ++ c :: []) pre key post h
        simpa using this

/-- C8: `rewrite_bibtex_key` replaces exactly the key-token span of the
first occurrence of the pattern `@<type>{<key>,` with the target key,
leaving every byte before and after that span unchanged; when no such
pattern occurs the input is returned unmodified (the function is total, so
it never raises); and the concrete scenario rewrites
`"@article{oldkey123,\n  title={X}\n}"` with key `smith2022x` to
`"@article{smith2022x,\n  title={X}\n}"`. -/
theorem claim_C8_rewrite_key_span :
    (∀ (s k pre key post : List Char),
      findKeySpan [] s = some (pre, key, post) →
        s = pre ++ key ++ post ∧ rewrite_bibtex_key s k = pre ++ k ++ post) ∧
    (∀ (s k : List Char), findKeySpan [] s = none → rewrite_bibtex_key s k = s) ∧
    rewrite_bibtex_key ("@article\x7boldkey123,\n  title=\x7bX\x7d\n\x7d".toList)
        ("smith2022x".toList)
      = "@article\x7bsmith2022x,\n  title=\x7bX\x7d\n\x7d".toList := by
  refine ⟨?_, ?_, by decide⟩
  · intro s k pre key post h
    constructor
    · have := findKeySpan_decomp s [] pre key post h
      simpa using this
    · rw [rewrite_bibtex_key, h]
  · intro s k h
    rw [rewrite_bibtex_key, h]

/-- Witness for C8 at a concrete entry: the scanner finds the key span of
`"@misc{key1, x}"` and the rewrite replaces exactly that span. -/
theorem claim_C8_witness :
    "@misc\x7bkey1, x\x7d".toList
      = "@misc\x7b".toList ++ "key1".toList ++ ", x\x7d".toList ∧
    rewrite_bibtex_key ("@misc\x7bkey1, x\x7d".toList) ("newkey".toList)
      = "@misc\x7b".toList ++ "newkey".toList ++ ", x\x7d".toList :=
  claim_C8_rewrite_key_span.1 ("@misc\x7bkey1, x\x7d".toList) ("newkey".toList)
    ("@misc\x7b".toList) ("key1".toList) (", x\x7d".toList) (by decide)

/-! ### Claim C2 -/

/-- C2: `search_cache_hit` returns a result if and only if the TTL is
strictly positive, a stored search with exactly equal query, start,
max_results, sort_by and sort_order exists, and the most recently recorded
such row parses to a timestamp whose age `now - t` is within the TTL; in
that case the returned value is the stored raw response of that row
re-decoded by the same feed parser — byte-identical to a fresh decode of
the stored response. -/
theorem claim_C2_search_cache_hit {α : Type} (parse : List Char → α)
    (toEpoch : List Char → Option Int) (now : Int) (st : RegistryState)
    (params : ArxivSearchParams) (cache_ttl_s : Int) :
    ((search_cache_hit parse toEpoch now st params cache_ttl_s).isSome = true
      ↔ 0 < cache_ttl_s ∧ ∃ r t,
          mostRecent (matchingSearches st.searches params) = some r
          ∧ toEpoch r.requested_at = some t ∧ now - t ≤ cache_ttl_s) ∧
    (∀ r t, mostRecent (matchingSearches st.searches params) = some r →
        toEpoch r.requested_at = some t →
        0 < cache_ttl_s → now - t ≤ cache_ttl_s →
        search_cache_hit parse toEpoch now st params cache_ttl_s
          = some (r.search_id, parse r.raw_xml)) := by
  constructor
  · constructor
    · intro hsome
      rw [search_cache_hit] at hsome
      by_cases h0 : cache_ttl_s ≤ 0
      · rw [if_pos h0] at hsome
        cases hsome
      · rw [if_neg h0] at hsome
        refine ⟨by omega, ?_⟩
        match hm : mostRecent (matchingSearches st.searches params) with
        | none =>
            simp only [hm] at hsome
            cases hsome
        | some r =>
            simp only [hm] at hsome
            match he : toEpoch r.requested_at with
            | none =>
                simp only [he] at hsome
                cases hsome
            | some t =>
                simp only [he] at hsome
                by_cases hage : cache_ttl_s < now - t
                · rw [if_pos hage] at hsome
                  cases hsome
                · exact ⟨r, t, rfl, he, by omega⟩
    · rintro ⟨h0, r, t, hm, he, hage⟩
      rw [search_cache_hit, if_neg (by omega)]
      simp only [hm, he]
      rw [if_neg (by omega)]
      rfl
  · intro r t hm he h0 hage
    rw [search_cache_hit, if_neg (by omega)]
    simp only [hm, he]
    rw [if_neg (by omega)]

/-- Witness for C2 on `searchState`: a fresh enough exactly-matching stored
search is replayed as the parse of its stored raw response. -/
theorem claim_C2_witness :
    search_cache_hit (fun x => x) (fun _ => some (0 : Int)) 100 searchState
      paramsFix 86400 = some (7, searchRowFix.raw_xml) :=
  (claim_C2_search_cache_hit (fun x => x) (fun _ => some (0 : Int)) 100
      searchState paramsFix 86400).2 searchRowFix 0 (by decide) rfl (by decide)
    (by decide)

/-! ### Claim C5 -/

/-- `upsert_work` never touches the fetch log. -/
theorem upsert_work_fetches {st : RegistryState} {w : WorkRecord} {now : List Char}
    {st' : RegistryState} {wid : Nat} (h : upsert_work st w now = .ok (st', wid)) :
    st'.fetches = st.fetches := by
  rw [upsert_work] at h
  match hr : (match runUpsert st w w.doi now with
      | .ok r => Except.ok r
      | .error _ => runUpsert st w none now) with
  | .error e =>
      simp only [hr] at h
      cases h
  | .ok (works', wid2, next') =>
      simp only [hr] at h
      injection h with h1
      injection h1 with h2 h3
      subst h2
      rfl

/-- C5, counterexample: a transport failure (empty body, absent status)
inside `ensure_work` is a remote retrieval attempt, yet the fetch log does
not grow — `record_fetch` sits after the `if not body: return None` check —
contradicting the claim that every attempt, including transport failures,
appends an entry. -/
theorem claim_C5_counterexample :
    ensure_work (fun _ => ((), ([] : List WorkRecord))) (fun x => x) (fun x => x)
        (none, []) emptyState ("2301.04104".toList) ("T1".toList)
      = (.ok (emptyState, none), true) ∧
    emptyState.fetches.length ≠ emptyState.fetches.length + 1 := by
  constructor
  · decide
  · decide

/-- C5 (amended): a remote retrieval attempt of `ensure_work` that yields a
non-empty body appends exactly one fetch-log entry recording the kind, the
URL, the (nullable) status, the content hash and the byte length, and no
other operation of `ensure_work` updates or deletes existing entries (the
prior log is always preserved as a prefix); an attempt whose transport
fails with an empty body and absent status appends nothing and is merely
skipped. -/
theorem claim_C5_fetch_log_append {μ : Type} (parse : List Char → μ × List WorkRecord)
    (quote hash : List Char → List Char) (status : Option Int) (body : List Char)
    (st : RegistryState) (aid now : List Char)
    (res : Except Unit (RegistryState × Option Nat)) (attempted : Bool)
    (h : ensure_work parse quote hash (status, body) st aid now = (res, attempted)) :
    ∀ st' w, res = .ok (st', w) →
      ((attempted = true ∧ body ≠ []) →
          st'.fetches = st.fetches ++
            ⟨now, "arxiv_api_id_list".toList, idListUrl quote aid, status,
              some (hash body), body.length⟩ :: []) ∧
      ((attempted = false ∨ body = []) → st'.fetches = st.fetches) := by
  rw [ensure_work] at h
  match hf : findWork st.works aid with
  | some row =>
      simp only [hf] at h
      injection h with h1 h2
      subst h1
      subst h2
      intro st' w hres
      injection hres with h3
      injection h3 with h4 h5
      subst h4
      exact ⟨fun hcon => absurd hcon.1 (by simp), fun _ => rfl⟩
  | none =>
      simp only [hf] at h
      by_cases hb : body = []
      · rw [if_pos hb] at h
        injection h with h1 h2
        subst h1
        subst h2
        intro st' w hres
        injection hres with h3
        injection h3 with h4 h5
        subst h4
        exact ⟨fun hcon => absurd hb hcon.2, fun _ => rfl⟩
      · rw [if_neg hb] at h
        match hp : (parse body).2 with
        | [] =>
            simp only [hp] at h
            injection h with h1 h2
            subst h1
            subst h2
            intro st' w hres
            injection hres with h3
            injection h3 with h4 h5
            subst h4
            refine ⟨fun _ => ?_, fun hcon => ?_⟩
            · show (record_fetch st _ _ _ _ hash now).fetches = _
              rw [record_fetch]
              rw [if_pos hb]
            · rcases hcon with hcon | hcon
              · cases hcon
              · exact absurd hcon hb
        | e :: rest =>
            simp only [hp] at h
            match hu : upsert_work (record_fetch st ("arxiv_api_id_list".toList)
                (idListUrl quote aid) status body hash now) e now with
            | .error u =>
                simp only [hu] at h
                injection h with h1 h2
                subst h1
                subst h2
                intro st' w hres
                cases hres
            | .ok (st2, wid) =>
                simp only [hu] at h
                injection h with h1 h2
                subst h1
                subst h2
                intro st' w hres
                injection hres with h3
                injection h3 with h4 h5
                subst h4
                refine ⟨fun _ => ?_, fun hcon => ?_⟩
                · rw [upsert_work_fetches hu, record_fetch]
                  rw [if_pos hb]
                · rcases hcon with hcon | hcon
                  · cases hcon
                  · exact absurd hcon hb

/-- Witness for C5: a successful metadata fetch of 7 bytes appends exactly
one fetch-log entry to the empty registry. -/
theorem claim_C5_witness :
    ∃ st' : RegistryState,
      (ensure_work (fun _ => ((), ([] : List WorkRecord))) (fun x => x)
          (fun x => x) (some 200, "<feed/>".toList) emptyState
          ("2301.04104".toList) ("T1".toList)).1 = .ok (st', none) ∧
      st'.fetches = emptyState.fetches ++
        ⟨"T1".toList, "arxiv_api_id_list".toList,
          idListUrl (fun x => x) ("2301.04104".toList), some 200,
          some ("<feed/>".toList), ("<feed/>".toList).length⟩ :: [] := by
  have happ := claim_C5_fetch_log_append (fun _ => ((), ([] : List WorkRecord)))
    (fun x => x) (fun x => x) (some 200) ("<feed/>".toList) emptyState
    ("2301.04104".toList) ("T1".toList) _ _ rfl
  exact ⟨_, rfl, (happ _ _ rfl).1 ⟨rfl, by decide⟩⟩

/-! ### Claim C1: the author-replacement loop -/

theorem findAuthorId_get : ∀ {authors : List (List Char)} {name : List Char}
    {i : Nat}, findAuthorId authors name = some i → authors.get? i = some name := by
  intro authors
  induction authors with
  | nil =>
      intro name i h
      cases h
  | cons a rest ih =>
      intro name i h
      rw [findAuthorId] at h
      by_cases ha : a = name
      · rw [if_pos ha] at h
        injection h with h1
        subst h1
        subst ha
        rfl
      · rw [if_neg ha] at h
        rcases Option.map_eq_some'.mp h with ⟨j, hj, hji⟩
        subst hji
        show rest.get? j = some name
        exact ih hj

theorem findAuthorId_lt : ∀ {authors : List (List Char)} {name : List Char}
    {i : Nat}, findAuthorId authors name = some i → i < authors.length := by
  intro authors
  induction authors with
  | nil =>
      intro name i h
      cases h
  | cons a rest ih =>
      intro name i h
      rw [findAuthorId] at h
      by_cases ha : a = name
      · rw [if_pos ha] at h
        injection h with h1
        subst h1
        simp
      · rw [if_neg ha] at h
        rcases Option.map_eq_some'.mp h with ⟨j, hj, hji⟩
        subst hji
        have := ih hj
        simp only [List.length_cons]
        omega

theorem findAuthorId_append_of_some : ∀ {authors : List (List Char)}
    {name : List Char} {i : Nat} (ys : List (List Char)),
    findAuthorId authors name = some i →
    findAuthorId (authors ++ ys) name = some i := by
  intro authors
  induction authors with
  | nil =>
      intro name i ys h
      cases h
  | cons a rest ih =>
      intro name i ys h
      rw [findAuthorId] at h
      rw [List.cons_append, findAuthorId]
      by_cases ha : a = name
      · rw [if_pos ha] at h ⊢
        exact h
      · rw [if_neg ha] at h ⊢
        rcases Option.map_eq_some'.mp h with ⟨j, hj, hji⟩
        rw [ih ys hj]
        simp [hji]

theorem findAuthorId_append_self : ∀ {authors : List (List Char)}
    {name : List Char}, findAuthorId authors name = none →
    findAuthorId (authors ++ name :: []) name = some authors.length := by
  intro authors
  induction authors with
  | nil =>
      intro name _
      simp [findAuthorId]
  | cons a rest ih =>
      intro name h
      rw [findAuthorId] at h
      rw [List.cons_append, findAuthorId]
      by_cases ha : a = name
      · rw [if_pos ha] at h
        cases h
      · rw [if_neg ha] at h ⊢
        have hr : findAuthorId rest name = none := Option.map_eq_none'.mp h
        rw [ih hr]
        simp

theorem get?_append_length {α : Type} (l₁ : List α) (a : α) (l₂ : List α) :
    (l₁ ++ a :: l₂).get? l₁.length = some a := by
  induction l₁ with
  | nil => rfl
  | cons x t ih => simpa using ih

/-- Specification of the author-replacement loop: it only appends to the
authors table and to the authorship rows; the new rows carry the work id,
contiguous positions starting at `pos`, and name for name (in first-seen
order, duplicates skipped) the deduplicated remaining author names. -/
theorem addAuthors_spec : ∀ (names authors : List (List Char))
    (wa : List WorkAuthorRow) (wid : Nat) (seen : List Nat)
    (seenN : List (List Char)) (pos : Nat),
    (∀ i, i ∈ seen ↔ ∃ m ∈ seenN, findAuthorId authors m = some i) →
    (∀ m ∈ seenN, (findAuthorId authors m).isSome = true) →
    ∃ ext rows,
      addAuthors wid names authors wa seen pos = (authors ++ ext, wa ++ rows) ∧
      rows.map (fun r => (r.position, (authors ++ ext).get? r.author_id))
        = (List.enumFrom pos (dedupNames seenN names)).map
            (fun q => (q.1, some q.2)) ∧
      (∀ r ∈ rows, r.work_id = wid) := by
  intro names
  induction names with
  | nil =>
      intro authors wa wid seen seenN pos hseen hseenN
      exact ⟨[], [], by simp [addAuthors], by simp [dedupNames], by simp⟩
  | cons n rest ih =>
      intro authors wa wid seen seenN pos hseen hseenN
      rw [addAuthors]
      match hfa : findAuthorId authors n with
      | some i =>
          have hp : getOrCreateAuthor authors n = (authors, i) := by
            rw [getOrCreateAuthor, hfa]
          rw [hp]
          by_cases hmem : i ∈ seen
          · rw [if_pos hmem]
            have hnN : n ∈ seenN := by
              rcases (hseen i).mp hmem with ⟨m, hm, hfm⟩
              have h1 := findAuthorId_get hfm
              have h2 := findAuthorId_get hfa
              rw [h1] at h2
              injection h2 with h3
              rw [h3] at hm
              exact hm
            obtain ⟨ext, rows, he, hmap, hwid⟩ :=
              ih authors wa wid seen seenN pos hseen hseenN
            refine ⟨ext, rows, he, ?_, hwid⟩
            rw [hmap, dedupNames, if_pos hnN]
          · rw [if_neg hmem]
            have hnN : n ∉ seenN := by
              intro hn
              exact hmem ((hseen i).mpr ⟨n, hn, hfa⟩)
            have hseen' : ∀ j, j ∈ i :: seen ↔
                ∃ m ∈ n :: seenN, findAuthorId authors m = some j := by
              intro j
              constructor
              · intro hj
                rcases List.mem_cons.mp hj with rfl | hj
                · exact ⟨n, List.mem_cons_self n seenN, hfa⟩
                · rcases (hseen j).mp hj with ⟨m, hm, hfm⟩
                  exact ⟨m, List.mem_cons_of_mem n hm, hfm⟩
              · rintro ⟨m, hm, hfm⟩
                rcases List.mem_cons.mp hm with rfl | hm
                · rw [hfa] at hfm
                  injection hfm with h1
                  rw [← h1]
                  exact List.mem_cons_self i seen
                · exact List.mem_cons_of_mem i ((hseen j).mpr ⟨m, hm, hfm⟩)
            have hseenN' : ∀ m ∈ n :: seenN,
                (findAuthorId authors m).isSome = true := by
              intro m hm
              rcases List.mem_cons.mp hm with rfl | hm
              · rw [hfa]
                rfl
              · exact hseenN m hm
            obtain ⟨ext, rows, he, hmap, hwid⟩ :=
              ih authors (wa ++ ⟨wid, i, pos⟩ :: []) wid (i :: seen) (n :: seenN)
                (pos + 1) hseen' hseenN'
            refine ⟨ext, ⟨wid, i, pos⟩ :: rows, ?_, ?_, ?_⟩
            · rw [he, List.append_assoc]
              rfl
            · rw [List.map_cons, hmap, dedupNames, if_neg hnN]
              rw [List.enumFrom, List.map_cons]
              have hget : (authors ++ ext).get? i = some n := by
                rw [List.get?_append (findAuthorId_lt hfa)]
                exact findAuthorId_get hfa
              rw [hget]
            · intro r hr
              rcases List.mem_cons.mp hr with rfl | hr
              · rfl
              · exact hwid r hr
      | none =>
          have hp : getOrCreateAuthor authors n = (authors ++ n :: [], authors.length) := by
            rw [getOrCreateAuthor, hfa]
          rw [hp]
          have hLnot : authors.length ∉ seen := by
            intro hL
            rcases (hseen authors.length).mp hL with ⟨m, hm, hfm⟩
            have := findAuthorId_lt hfm
            omega
          rw [if_neg hLnot]
          have hnN : n ∉ seenN := by
            intro hn
            have := hseenN n hn
            rw [hfa] at this
            cases this
          have hseen' : ∀ j, j ∈ authors.length :: seen ↔
              ∃ m ∈ n :: seenN, findAuthorId (authors ++ n :: []) m = some j := by
            intro j
            constructor
            · intro hj
              rcases List.mem_cons.mp hj with rfl | hj
              · exact ⟨n, List.mem_cons_self n seenN, findAuthorId_append_self hfa⟩
              · rcases (hseen j).mp hj with ⟨m, hm, hfm⟩
                exact ⟨m, List.mem_cons_of_mem n hm,
                  findAuthorId_append_of_some _ hfm⟩
            · rintro ⟨m, hm, hfm⟩
              rcases List.mem_cons.mp hm with rfl | hm
              · rw [findAuthorId_append_self hfa] at hfm
                injection hfm with h1
                rw [← h1]
                exact List.mem_cons_self _ seen
              · have hs := hseenN m hm
                match hfm0 : findAuthorId authors m with
                | none =>
                    rw [hfm0] at hs
                    cases hs
                | some j0 =>
                    rw [findAuthorId_append_of_some _ hfm0] at hfm
                    injection hfm with h1
                    rw [← h1]
                    exact List.mem_cons_of_mem _ ((hseen j0).mpr ⟨m, hm, hfm0⟩)
          have hseenN' : ∀ m ∈ n :: seenN,
              (findAuthorId (authors ++ n :: []) m).isSome = true := by
            intro m hm
            rcases List.mem_cons.mp hm with rfl | hm
            · rw [findAuthorId_append_self hfa]
              rfl
            · have hs := hseenN m hm
              match hfm0 : findAuthorId authors m with
              | none =>
                  rw [hfm0] at hs
                  cases hs
              | some j0 =>
                  rw [findAuthorId_append_of_some _ hfm0]
                  rfl
          obtain ⟨ext, rows, he, hmap, hwid⟩ :=
            ih (authors ++ n :: []) (wa ++ ⟨wid, authors.length, pos⟩ :: []) wid
              (authors.length :: seen) (n :: seenN) (pos + 1) hseen' hseenN'
          refine ⟨n :: ext, ⟨wid, authors.length, pos⟩ :: rows, ?_, ?_, ?_⟩
          · rw [he, List.append_assoc, List.append_assoc]
            rfl
          · rw [List.map_cons, dedupNames, if_neg hnN]
            rw [List.enumFrom, List.map_cons]
            have hassoc : authors ++ n :: ext = (authors ++ n :: []) ++ ext := by
              simp
            have hget : (authors ++ n :: ext).get? authors.length = some n :=
              get?_append_length authors n ext
            rw [hget, hassoc, hmap]
          · intro r hr
            rcases List.mem_cons.mp hr with rfl | hr
            · rfl
            · exact hwid r hr

/-! ### Claim C1: the works table -/

theorem findWork_map_replace : ∀ {works : List WorksRow} {aid : List Char}
    {old new : WorksRow}, findWork works aid = some old → new.arxiv_id = aid →
    findWork (works.map (fun r => if r.arxiv_id == aid then new else r)) aid
      = some new := by
  intro works
  induction works with
  | nil =>
      intro aid old new h _
      cases h
  | cons r t ih =>
      intro aid old new h hnew
      rw [findWork] at h ⊢
      cases hr : (r.arxiv_id == aid) with
      | true =>
          rw [List.map_cons, if_pos hr]
          have hp : (new.arxiv_id == aid) = true := by simp [hnew]
          simp only [List.find?_cons, hp]
      | false =>
          simp only [List.find?_cons, hr] at h
          rw [List.map_cons, if_neg (by simp [hr])]
          simp only [List.find?_cons, hr]
          exact ih h hnew

theorem map_replace_id {works : List WorksRow} {aid : List Char} {new : WorksRow}
    (h : ∀ r ∈ works, (r.arxiv_id == aid) = false) :
    works.map (fun r => if r.arxiv_id == aid then new else r) = works := by
  have hcg : ∀ r ∈ works, (if r.arxiv_id == aid then new else r) = id r := by
    intro r hr
    rw [if_neg]
    · rfl
    · simp [h r hr]
  rw [List.map_congr_left hcg, List.map_id]

theorem filter_map_replace : ∀ {works : List WorksRow} {aid : List Char}
    {old new : WorksRow}, findWork works aid = some old →
    (works.map (fun r => r.arxiv_id)).Nodup → new.arxiv_id = aid →
    (works.map (fun r => if r.arxiv_id == aid then new else r)).filter
      (fun r => r.arxiv_id == aid) = new :: [] := by
  intro works
  induction works with
  | nil =>
      intro aid old new h _ _
      cases h
  | cons r t ih =>
      intro aid old new h hnd hnew
      rw [List.map_cons, List.nodup_cons] at hnd
      rw [findWork] at h
      cases hr : (r.arxiv_id == aid) with
      | true =>
          rw [List.map_cons, if_pos hr, List.filter_cons_of_pos (by simp [hnew])]
          have hno : ∀ r' ∈ t, (r'.arxiv_id == aid) = false := by
            intro r' hr'
            rw [beq_eq_false_iff_ne]
            intro he
            apply hnd.1
            rw [beq_iff_eq.mp hr, ← he]
            exact List.mem_map.mpr ⟨r', hr', rfl⟩
          rw [map_replace_id hno]
          have hnil : List.filter (fun r => r.arxiv_id == aid) t = [] := by
            rw [List.filter_eq_nil_iff]
            intro a ha
            simp [hno a ha]
          rw [hnil]
      | false =>
          simp only [List.find?_cons, hr] at h
          rw [List.map_cons, if_neg (by simp [hr]),
            List.filter_cons_of_neg (by simp [hr])]
          exact ih h hnd.2 hnew

theorem filter_append_fresh {works : List WorksRow} {aid : List Char}
    {new : WorksRow} (h : findWork works aid = none) (hnew : new.arxiv_id = aid) :
    ((works ++ new :: []).filter (fun r => r.arxiv_id == aid)) = new :: [] := by
  rw [List.filter_append]
  have h1 : works.filter (fun r => r.arxiv_id == aid) = [] := by
    rw [List.filter_eq_nil_iff]
    intro a ha
    have := List.find?_eq_none.mp h a ha
    simpa using this
  rw [h1, List.nil_append, List.filter_cons_of_pos (by simp [hnew])]
  rfl

theorem map_arxiv_replace {works : List WorksRow} {aid : List Char}
    {new : WorksRow} (hnew : new.arxiv_id = aid) :
    ((works.map (fun r => if r.arxiv_id == aid then new else r)).map
      (fun r => r.arxiv_id)) = works.map (fun r => r.arxiv_id) := by
  rw [List.map_map]
  refine List.map_congr_left ?_
  intro r _
  by_cases h : (r.arxiv_id == aid) = true
  · show (if r.arxiv_id == aid then new else r).arxiv_id = r.arxiv_id
    rw [if_pos h, hnew]
    exact (beq_iff_eq.mp h).symm
  · show (if r.arxiv_id == aid then new else r).arxiv_id = r.arxiv_id
    rw [if_neg h]

/-- The `DO UPDATE` row written on the none-doi retry never violates the
doi index when the registry satisfies the doi-uniqueness invariant. -/
theorem merged_none_conflict_false {st : RegistryState} {w : WorkRecord}
    {old : WorksRow} (now : List Char) (hmem : old ∈ st.works)
    (hdoi : ∀ r1 ∈ st.works, ∀ r2 ∈ st.works, r1.work_id ≠ r2.work_id →
      r1.doi ≠ none → r1.doi ≠ r2.doi) :
    doiConflict st.works (mergedRow old w none now) = false := by
  have hdval : (mergedRow old w none now).doi = old.doi := by
    rw [mergedRow]
    exact orElse_none_fn old.doi
  have hid : (mergedRow old w none now).work_id = old.work_id := rfl
  rw [doiConflict, hdval, hid]
  match ho : old.doi with
  | none => rfl
  | some d =>
      rw [List.any_eq_false]
      intro r hr
      simp only [Bool.and_eq_true, bne_iff_ne, ne_eq, beq_iff_eq, not_and]
      intro hrne hrd
      have := hdoi old hmem r hr (fun e => hrne (e.symm)) (by simp [ho])
      rw [ho, hrd] at this
      exact this rfl

/-- Totality and characterization of `upsert_work`: provided the none-doi
retry cannot itself conflict (which the doi invariant guarantees), the
upsert succeeds with some doi value `dv` (the record's or the null
fallback) and produces exactly the merged or fresh row, plus the
author-replacement updates. -/
theorem upsert_work_total (st : RegistryState) (w : WorkRecord) (now : List Char)
    (hsafe : ∀ old, findWork st.works w.arxiv_id = some old →
      doiConflict st.works (mergedRow old w none now) = false) :
    ∃ st' wid dv, (dv = w.doi ∨ dv = none) ∧
      upsert_work st w now = .ok (st', wid) ∧
      doiConflict st.works (match findWork st.works w.arxiv_id with
        | some old => mergedRow old w dv now
        | none => freshRow st.next_work_id w dv now) = false ∧
      wid = (match findWork st.works w.arxiv_id with
        | some old => old.work_id
        | none => st.next_work_id) ∧
      st'.works = (match findWork st.works w.arxiv_id with
        | some old => st.works.map (fun r => if r.arxiv_id == w.arxiv_id
            then mergedRow old w dv now else r)
        | none => st.works ++ freshRow st.next_work_id w dv now :: []) ∧
      st'.authors = (addAuthors wid w.authors st.authors
        (st.work_authors.filter (fun r => r.work_id != wid)) [] 0).1 ∧
      st'.work_authors = (addAuthors wid w.authors st.authors
        (st.work_authors.filter (fun r => r.work_id != wid)) [] 0).2 := by
  match hf : findWork st.works w.arxiv_id with
  | some old =>
      cases hc : doiConflict st.works (mergedRow old w w.doi now) with
      | true =>
          have hrun1 : runUpsert st w w.doi now = .error () := by
            rw [runUpsert]
            simp only [hf, hc, if_true]
          have hc2 : doiConflict st.works (mergedRow old w none now) = false :=
            hsafe old hf
          have hrun2 : runUpsert st w none now
              = .ok (st.works.map (fun r => if r.arxiv_id == w.arxiv_id
                  then mergedRow old w none now else r),
                old.work_id, st.next_work_id) := by
            rw [runUpsert]
            simp only [hf, hc2, Bool.false_eq_true, if_false]
          refine ⟨upsertState st w (st.works.map (fun r =>
              if r.arxiv_id == w.arxiv_id then mergedRow old w none now else r))
              old.work_id st.next_work_id,
            old.work_id, none, Or.inr rfl, ?_, hc2, ?_, ?_, ?_, ?_⟩
          · rw [upsert_work]
            simp only [hrun1, hrun2]
            rfl
          · rfl
          · rfl
          · rfl
          · rfl
      | false =>
          have hrun1 : runUpsert st w w.doi now
              = .ok (st.works.map (fun r => if r.arxiv_id == w.arxiv_id
                  then mergedRow old w w.doi now else r),
                old.work_id, st.next_work_id) := by
            rw [runUpsert]
            simp only [hf, hc, Bool.false_eq_true, if_false]
          refine ⟨upsertState st w (st.works.map (fun r =>
              if r.arxiv_id == w.arxiv_id then mergedRow old w w.doi now else r))
              old.work_id st.next_work_id,
            old.work_id, w.doi, Or.inl rfl, ?_, hc, ?_, ?_, ?_, ?_⟩
          · rw [upsert_work]
            simp only [hrun1]
            rfl
          · rfl
          · rfl
          · rfl
          · rfl
  | none =>
      cases hc : doiConflict st.works (freshRow st.next_work_id w w.doi now) with
      | true =>
          have hrun1 : runUpsert st w w.doi now = .error () := by
            rw [runUpsert]
            simp only [hf, hc, if_true]
          have hc2 : doiConflict st.works (freshRow st.next_work_id w none now)
              = false := rfl
          have hrun2 : runUpsert st w none now
              = .ok (st.works ++ freshRow st.next_work_id w none now :: [],
                st.next_work_id, st.next_work_id + 1) := by
            rw [runUpsert]
            simp only [hf, hc2, Bool.false_eq_true, if_false]
          refine ⟨upsertState st w
              (st.works ++ freshRow st.next_work_id w none now :: [])
              st.next_work_id (st.next_work_id + 1),
            st.next_work_id, none, Or.inr rfl, ?_, hc2, ?_, ?_, ?_, ?_⟩
          · rw [upsert_work]
            simp only [hrun1, hrun2]
            rfl
          · rfl
          · rfl
          · rfl
          · rfl
      | false =>
          have hrun1 : runUpsert st w w.doi now
              = .ok (st.works ++ freshRow st.next_work_id w w.doi now :: [],
                st.next_work_id, st.next_work_id + 1) := by
            rw [runUpsert]
            simp only [hf, hc, Bool.false_eq_true, if_false]
          refine ⟨upsertState st w
              (st.works ++ freshRow st.next_work_id w w.doi now :: [])
              st.next_work_id (st.next_work_id + 1),
            st.next_work_id, w.doi, Or.inl rfl, ?_, hc, ?_, ?_, ?_, ?_⟩
          · rw [upsert_work]
            simp only [hrun1]
            rfl
          · rfl
          · rfl
          · rfl
          · rfl

/-! ### Claim C1: doi-invariant preservation and the second call -/

theorem mergedRow_doi (old : WorksRow) (w : WorkRecord)
    (dv : Option (List Char)) (now : List Char) :
    (mergedRow old w dv now).doi = old.doi.orElse (fun _ => dv) := rfl

theorem mergedRow_comment (old : WorksRow) (w : WorkRecord)
    (dv : Option (List Char)) (now : List Char) :
    (mergedRow old w dv now).comment = w.comment.orElse (fun _ => old.comment) :=
  rfl

theorem mergedRow_abs_url (old : WorksRow) (w : WorkRecord)
    (dv : Option (List Char)) (now : List Char) :
    (mergedRow old w dv now).abs_url = w.abs_url.orElse (fun _ => old.abs_url) :=
  rfl

theorem mergedRow_pdf_url (old : WorksRow) (w : WorkRecord)
    (dv : Option (List Char)) (now : List Char) :
    (mergedRow old w dv now).pdf_url = w.pdf_url.orElse (fun _ => old.pdf_url) :=
  rfl

theorem mergedRow_journal_ref (old : WorksRow) (w : WorkRecord)
    (dv : Option (List Char)) (now : List Char) :
    (mergedRow old w dv now).journal_ref
      = w.journal_ref.orElse (fun _ => old.journal_ref) := rfl

theorem mergedRow_work_id (old : WorksRow) (w : WorkRecord)
    (dv : Option (List Char)) (now : List Char) :
    (mergedRow old w dv now).work_id = old.work_id := rfl

theorem mergedRow_arxiv_id (old : WorksRow) (w : WorkRecord)
    (dv : Option (List Char)) (now : List Char) :
    (mergedRow old w dv now).arxiv_id = old.arxiv_id := rfl

theorem orElse_ne_none_left {a b : Option (List Char)} (h : a ≠ none) :
    (a.orElse fun _ => b) ≠ none := by
  match a with
  | none => exact absurd rfl h
  | some x => exact fun hx => Option.noConfusion hx

theorem orElse_ne_none_right {a b : Option (List Char)} (h : b ≠ none) :
    (a.orElse fun _ => b) ≠ none := by
  match a with
  | none => exact h
  | some x => exact fun hx => Option.noConfusion hx

theorem freshRow_doi (wid : Nat) (w : WorkRecord) (dv : Option (List Char))
    (now : List Char) : (freshRow wid w dv now).doi = dv := rfl

theorem freshRow_work_id (wid : Nat) (w : WorkRecord) (dv : Option (List Char))
    (now : List Char) : (freshRow wid w dv now).work_id = wid := rfl

theorem findWork_arxiv {works : List WorksRow} {aid : List Char} {r : WorksRow}
    (h : findWork works aid = some r) : r.arxiv_id = aid := by
  rw [findWork] at h
  have h2 := List.find?_some h
  exact beq_iff_eq.mp h2

theorem nodup_append_fresh {works : List WorksRow} {aid : List Char}
    {new : WorksRow} (h : findWork works aid = none) (hnew : new.arxiv_id = aid)
    (hnd : (works.map (fun r => r.arxiv_id)).Nodup) :
    ((works ++ new :: []).map (fun r => r.arxiv_id)).Nodup := by
  rw [List.map_append, List.nodup_append]
  refine ⟨hnd, List.nodup_singleton _, ?_⟩
  intro a ha hb
  obtain ⟨r, hr, hre⟩ := List.mem_map.mp ha
  have hfr := List.find?_eq_none.mp h r hr
  simp only [List.map_cons, List.map_nil, List.mem_singleton] at hb
  apply hfr
  rw [beq_iff_eq, hre, hb, hnew]

theorem doiInv_update {works : List WorksRow} {old : WorksRow} {w : WorkRecord}
    {dv : Option (List Char)} {now : List Char}
    (hf : findWork works w.arxiv_id = some old)
    (hinv : DoiInv works)
    (hc : doiConflict works (mergedRow old w dv now) = false) :
    DoiInv (works.map (fun r => if r.arxiv_id == w.arxiv_id
      then mergedRow old w dv now else r)) := by
  have hold : old ∈ works := by
    rw [findWork] at hf
    exact List.mem_of_find?_eq_some hf
  intro r1 h1 r2 h2 hne hnn
  obtain ⟨s1, hs1, he1⟩ := List.mem_map.mp h1
  obtain ⟨s2, hs2, he2⟩ := List.mem_map.mp h2
  by_cases hb1 : (s1.arxiv_id == w.arxiv_id) = true
  · rw [if_pos hb1] at he1
    by_cases hb2 : (s2.arxiv_id == w.arxiv_id) = true
    · rw [if_pos hb2] at he2
      exact absurd (by rw [← he1, ← he2]) hne
    · rw [if_neg hb2] at he2
      subst he1
      subst he2
      rw [mergedRow_work_id] at hne
      rw [mergedRow_doi] at hnn ⊢
      match ho : old.doi with
      | some d =>
          have key := hinv old hold s2 hs2 hne (by simp [ho])
          rw [ho] at key
          show some d ≠ s2.doi
          exact key
      | none =>
          rw [ho] at hnn
          have hnn2 : dv ≠ none := hnn
          show dv ≠ s2.doi
          match hdv : dv with
          | none => exact absurd rfl hnn2
          | some d =>
              simp only [doiConflict, mergedRow_doi, mergedRow_work_id, ho,
                hdv] at hc
              have hany := List.any_eq_false.mp hc s2 hs2
              simp only [Bool.and_eq_true, bne_iff_ne, ne_eq, beq_iff_eq,
                not_and] at hany
              intro hx
              exact hany (fun he => hne he.symm) hx.symm
  · rw [if_neg hb1] at he1
    subst he1
    by_cases hb2 : (s2.arxiv_id == w.arxiv_id) = true
    · rw [if_pos hb2] at he2
      subst he2
      rw [mergedRow_work_id] at hne
      rw [mergedRow_doi]
      match ho : old.doi with
      | some d =>
          have key := hinv s1 hs1 old hold hne hnn
          rw [ho] at key
          show s1.doi ≠ some d
          exact key
      | none =>
          show s1.doi ≠ dv
          match hdv : dv with
          | none => exact hnn
          | some d =>
              simp only [doiConflict, mergedRow_doi, mergedRow_work_id, ho,
                hdv] at hc
              have hany := List.any_eq_false.mp hc s1 hs1
              simp only [Bool.and_eq_true, bne_iff_ne, ne_eq, beq_iff_eq,
                not_and] at hany
              exact hany hne
    · rw [if_neg hb2] at he2
      subst he2
      exact hinv s1 hs1 s2 hs2 hne hnn

theorem doiInv_insert {works : List WorksRow} {w : WorkRecord} {wid : Nat}
    {dv : Option (List Char)} {now : List Char}
    (hinv : DoiInv works)
    (hc : doiConflict works (freshRow wid w dv now) = false) :
    DoiInv (works ++ freshRow wid w dv now :: []) := by
  intro r1 h1 r2 h2 hne hnn
  rw [List.mem_append, List.mem_singleton] at h1 h2
  match h1 with
  | Or.inl hm1 =>
      match h2 with
      | Or.inl hm2 => exact hinv r1 hm1 r2 hm2 hne hnn
      | Or.inr he2 =>
          subst he2
          rw [freshRow_work_id] at hne
          show r1.doi ≠ dv
          match hdv : dv with
          | none => exact hnn
          | some d =>
              simp only [doiConflict, freshRow_doi, freshRow_work_id,
                hdv] at hc
              have hany := List.any_eq_false.mp hc r1 hm1
              simp only [Bool.and_eq_true, bne_iff_ne, ne_eq, beq_iff_eq,
                not_and] at hany
              exact hany hne
  | Or.inr he1 =>
      subst he1
      rw [freshRow_work_id] at hne
      rw [freshRow_doi] at hnn
      match h2 with
      | Or.inl hm2 =>
          show dv ≠ r2.doi
          match hdv : dv with
          | none => exact absurd rfl hnn
          | some d =>
              simp only [doiConflict, freshRow_doi, freshRow_work_id,
                hdv] at hc
              have hany := List.any_eq_false.mp hc r2 hm2
              simp only [Bool.and_eq_true, bne_iff_ne, ne_eq, beq_iff_eq,
                not_and] at hany
              intro hx
              exact hany (fun he => hne he.symm) hx.symm
      | Or.inr he2 =>
          subst he2
          exact absurd rfl hne

/-- Behaviour of a repeated `upsert_work` call: when the canonical id is
already stored in a registry satisfying the database uniqueness
constraints, the call succeeds, returns the stored row's `work_id`,
leaves a single row for the id, rebuilds the authorship rows from the
record's deduplicated author list with positions contiguous from zero,
and keeps every non-null merged field non-null. -/
theorem upsert_second_call (st1 : RegistryState) (w : WorkRecord)
    (now2 : List Char) (new1 : WorksRow)
    (hf1 : findWork st1.works w.arxiv_id = some new1)
    (hnd1 : (st1.works.map (fun r => r.arxiv_id)).Nodup)
    (hinv1 : DoiInv st1.works) :
    ∃ st2 id2,
      upsert_work st1 w now2 = .ok (st2, id2) ∧
      id2 = new1.work_id ∧
      (st2.works.filter (fun r => r.arxiv_id == w.arxiv_id)).length = 1 ∧
      authorsOfWork st2 id2 = (dedupNames [] w.authors).enum.map
        (fun q => (q.1, some q.2)) ∧
      ∃ new2, findWork st2.works w.arxiv_id = some new2 ∧
        (new1.doi ≠ none → new2.doi ≠ none) ∧
        (new1.comment ≠ none → new2.comment ≠ none) ∧
        (new1.abs_url ≠ none → new2.abs_url ≠ none) ∧
        (new1.pdf_url ≠ none → new2.pdf_url ≠ none) ∧
        (new1.journal_ref ≠ none → new2.journal_ref ≠ none) := by
  have hmem1 : new1 ∈ st1.works := by
    rw [findWork] at hf1
    exact List.mem_of_find?_eq_some hf1
  have hsafe : ∀ old, findWork st1.works w.arxiv_id = some old →
      doiConflict st1.works (mergedRow old w none now2) = false := by
    intro old hfx
    rw [hf1] at hfx
    cases hfx
    exact merged_none_conflict_false now2 hmem1 hinv1
  obtain ⟨st2, id2, dv2, hdv2, hup2, hc2, hid2, hw2, ha2, hwa2⟩ :=
    upsert_work_total st1 w now2 hsafe
  simp only [hf1] at hc2 hid2 hw2
  have harx1 : new1.arxiv_id = w.arxiv_id := findWork_arxiv hf1
  have harx2 : (mergedRow new1 w dv2 now2).arxiv_id = w.arxiv_id := by
    rw [mergedRow_arxiv_id, harx1]
  have hf2 : findWork st2.works w.arxiv_id = some (mergedRow new1 w dv2 now2) := by
    rw [hw2]
    exact findWork_map_replace hf1 harx2
  refine ⟨st2, id2, hup2, hid2, ?_, ?_,
    mergedRow new1 w dv2 now2, hf2, ?_, ?_, ?_, ?_, ?_⟩
  · rw [hw2, filter_map_replace hf1 hnd1 harx2]
    rfl
  · have hspec := addAuthors_spec w.authors st1.authors
      (st1.work_authors.filter (fun r => r.work_id != id2)) id2 [] [] 0
      (by simp) (by simp)
    obtain ⟨ext, rows, heq, hmap, hwid⟩ := hspec
    have hwa2b : st2.work_authors
        = (st1.work_authors.filter (fun r => r.work_id != id2)) ++ rows := by
      rw [hwa2, heq]
    have ha2b : st2.authors = st1.authors ++ ext := by
      rw [ha2, heq]
    rw [authorsOfWork, hwa2b, ha2b, List.filter_append]
    have hl : (st1.work_authors.filter (fun r => r.work_id != id2)).filter
        (fun r => r.work_id == id2) = [] := by
      rw [List.filter_eq_nil_iff]
      intro a ha
      have hbne := List.of_mem_filter ha
      simp only [bne_iff_ne, ne_eq] at hbne
      simp [hbne]
    have hr : rows.filter (fun r => r.work_id == id2) = rows := by
      refine List.filter_eq_self.mpr ?_
      intro a ha
      simp [hwid a ha]
    rw [hl, hr, List.nil_append, hmap]
    rfl
  · intro h
    rw [mergedRow_doi]
    exact orElse_ne_none_left h
  · intro h
    rw [mergedRow_comment]
    exact orElse_ne_none_right h
  · intro h
    rw [mergedRow_abs_url]
    exact orElse_ne_none_right h
  · intro h
    rw [mergedRow_pdf_url]
    exact orElse_ne_none_right h
  · intro h
    rw [mergedRow_journal_ref]
    exact orElse_ne_none_right h

/-- C1: under the database uniqueness constraints (unique `arxiv_id`,
unique non-null doi), calling `upsert_work` twice with the same parsed
record succeeds both times, returns the same `work_id` both times, leaves
exactly one `works` row for the record's canonical arXiv identifier,
leaves the work's authorship rows exactly those of the latest call —
first occurrences of the record's authors with positions contiguous from
zero — and never replaces a previously stored non-null doi, comment,
abs_url, pdf_url or journal_ref with null. -/
theorem claim_C1_upsert_twice (st : RegistryState) (w : WorkRecord)
    (now1 now2 : List Char)
    (hnd : (st.works.map (fun r => r.arxiv_id)).Nodup)
    (hinv : DoiInv st.works) :
    ∃ st1 id1 st2 id2,
      upsert_work st w now1 = .ok (st1, id1) ∧
      upsert_work st1 w now2 = .ok (st2, id2) ∧
      id2 = id1 ∧
      (st2.works.filter (fun r => r.arxiv_id == w.arxiv_id)).length = 1 ∧
      authorsOfWork st2 id2 = (dedupNames [] w.authors).enum.map
        (fun q => (q.1, some q.2)) ∧
      (∀ r0 r2, findWork st.works w.arxiv_id = some r0 →
        findWork st2.works w.arxiv_id = some r2 →
        (r0.doi ≠ none → r2.doi ≠ none) ∧
        (r0.comment ≠ none → r2.comment ≠ none) ∧
        (r0.abs_url ≠ none → r2.abs_url ≠ none) ∧
        (r0.pdf_url ≠ none → r2.pdf_url ≠ none) ∧
        (r0.journal_ref ≠ none → r2.journal_ref ≠ none)) := by
  match hf0 : findWork st.works w.arxiv_id with
  | some old0 =>
      have hold0 : old0 ∈ st.works := by
        rw [findWork] at hf0
        exact List.mem_of_find?_eq_some hf0
      have hf0w : findWork st.works w.arxiv_id = some old0 := by
        rw [findWork]
        exact hf0
      have hsafe1 : ∀ old, findWork st.works w.arxiv_id = some old →
          doiConflict st.works (mergedRow old w none now1) = false := by
        intro old hfx
        rw [hf0w] at hfx
        cases hfx
        exact merged_none_conflict_false now1 hold0 hinv
      obtain ⟨st1, id1, dv1, hdv1, hup1, hc1, hid1, hw1, ha1, hwa1⟩ :=
        upsert_work_total st w now1 hsafe1
      simp only [hf0w] at hc1 hid1 hw1
      have harx0 : old0.arxiv_id = w.arxiv_id := findWork_arxiv hf0w
      have harx1 : (mergedRow old0 w dv1 now1).arxiv_id = w.arxiv_id := by
        rw [mergedRow_arxiv_id, harx0]
      have hf1 : findWork st1.works w.arxiv_id
          = some (mergedRow old0 w dv1 now1) := by
        rw [hw1]
        exact findWork_map_replace hf0w harx1
      have hnd1 : (st1.works.map (fun r => r.arxiv_id)).Nodup := by
        rw [hw1, map_arxiv_replace harx1]
        exact hnd
      have hinv1 : DoiInv st1.works := by
        rw [hw1]
        exact doiInv_update hf0w hinv hc1
      obtain ⟨st2, id2, hup2, hid2, hcnt, hauth, new2, hf2, hpd, hpc, hpa,
        hpp, hpj⟩ := upsert_second_call st1 w now2 _ hf1 hnd1 hinv1
      refine ⟨st1, id1, st2, id2, hup1, hup2, ?_, hcnt, hauth, ?_⟩
      · rw [hid2, mergedRow_work_id, hid1]
      · intro r0 r2 h0 h2
        injection h0 with h0e
        subst h0e
        rw [hf2] at h2
        injection h2 with h2e
        subst h2e
        refine ⟨?_, ?_, ?_, ?_, ?_⟩
        · intro h
          apply hpd
          rw [mergedRow_doi]
          exact orElse_ne_none_left h
        · intro h
          apply hpc
          rw [mergedRow_comment]
          exact orElse_ne_none_right h
        · intro h
          apply hpa
          rw [mergedRow_abs_url]
          exact orElse_ne_none_right h
        · intro h
          apply hpp
          rw [mergedRow_pdf_url]
          exact orElse_ne_none_right h
        · intro h
          apply hpj
          rw [mergedRow_journal_ref]
          exact orElse_ne_none_right h
  | none =>
      have hf0w : findWork st.works w.arxiv_id = none := by
        rw [findWork]
        exact hf0
      have hsafe1 : ∀ old, findWork st.works w.arxiv_id = some old →
          doiConflict st.works (mergedRow old w none now1) = false := by
        intro old hfx
        rw [hf0w] at hfx
        exact Option.noConfusion hfx
      obtain ⟨st1, id1, dv1, hdv1, hup1, hc1, hid1, hw1, ha1, hwa1⟩ :=
        upsert_work_total st w now1 hsafe1
      simp only [hf0w] at hc1 hid1 hw1
      have harx1 : (freshRow st.next_work_id w dv1 now1).arxiv_id
          = w.arxiv_id := rfl
      have hf1 : findWork st1.works w.arxiv_id
          = some (freshRow st.next_work_id w dv1 now1) := by
        rw [hw1, findWork]
        rw [findWork] at hf0w
        rw [find?_append_of_none hf0w]
        rw [List.find?_cons_of_pos]
        rw [harx1]
        exact beq_self_eq_true w.arxiv_id
      have hnd1 : (st1.works.map (fun r => r.arxiv_id)).Nodup := by
        rw [hw1]
        exact nodup_append_fresh hf0w harx1 hnd
      have hinv1 : DoiInv st1.works := by
        rw [hw1]
        exact doiInv_insert hinv hc1
      obtain ⟨st2, id2, hup2, hid2, hcnt, hauth, new2, hf2, hpd, hpc, hpa,
        hpp, hpj⟩ := upsert_second_call st1 w now2 _ hf1 hnd1 hinv1
      refine ⟨st1, id1, st2, id2, hup1, hup2, ?_, hcnt, hauth, ?_⟩
      · rw [hid2, freshRow_work_id, hid1]
      · intro r0 r2 h0 h2
        exact Option.noConfusion h0

/-- Witness for C1: the double upsert of a concrete record into the empty
registry, whose works table trivially satisfies both uniqueness
constraints. -/
theorem claim_C1_witness :
    (emptyState.works.map (fun r => r.arxiv_id)).Nodup ∧
    DoiInv emptyState.works ∧
    (∃ st1 id1 st2 id2,
      upsert_work emptyState recJane "t1".toList = .ok (st1, id1) ∧
      upsert_work st1 recJane "t2".toList = .ok (st2, id2) ∧
      id2 = id1 ∧
      (st2.works.filter (fun r => r.arxiv_id == recJane.arxiv_id)).length = 1 ∧
      authorsOfWork st2 id2 = (dedupNames [] recJane.authors).enum.map
        (fun q => (q.1, some q.2)) ∧
      (∀ r0 r2, findWork emptyState.works recJane.arxiv_id = some r0 →
        findWork st2.works recJane.arxiv_id = some r2 →
        (r0.doi ≠ none → r2.doi ≠ none) ∧
        (r0.comment ≠ none → r2.comment ≠ none) ∧
        (r0.abs_url ≠ none → r2.abs_url ≠ none) ∧
        (r0.pdf_url ≠ none → r2.pdf_url ≠ none) ∧
        (r0.journal_ref ≠ none → r2.journal_ref ≠ none))) :=
  ⟨by decide, fun r1 h1 => absurd h1 (List.not_mem_nil r1),
    claim_C1_upsert_twice emptyState recJane "t1".toList "t2".toList
      (by decide) (fun r1 h1 => absurd h1 (List.not_mem_nil r1))⟩

end ArxivRegistry
